import Mathlib

/-!
Verification of the schema-builder core: a shallow embedding of the
JSON-schema algebra (SchemaBuilder.ts), the defaults resolver (Default.ts)
and the deep traversal / clone utilities, together with theorems settling
the specification claims.

Modelling conventions:
* JavaScript values are modelled by the inductive `JS`.  `JS.undef` is the
  JavaScript `undefined` value, distinct from JSON `null`.  Numbers are
  modelled as integers (no claim depends on float behaviour).
* JavaScript objects are association lists with the JS invariant of unique
  keys; operations that iterate with `for..in` walk the field list in
  insertion order, exactly as JS does for non-integer keys.
* Accessing a property of a primitive yields `undefined` (as in JS).
  Character indexing of strings and the `length` property of arrays are
  not modelled; no analysed code path depends on them.
* Code paths on which the JavaScript source would throw a `TypeError`
  (e.g. calling `.forEach` on a non-array) lie outside the `JSONSchema`
  input type of the source and are modelled as no-ops; each such spot is
  marked in a comment.
-/

mutual
inductive JS where
  | undef : JS
  | jnull : JS
  | jbool (b : Bool) : JS
  | jnum (n : Int) : JS
  | jstr (s : String) : JS
  | jarr (elems : JSList) : JS
  | jobj (fields : JSFields) : JS
  deriving DecidableEq, Repr
inductive JSList where
  | nil : JSList
  | cons (head : JS) (tail : JSList) : JSList
  deriving DecidableEq, Repr
inductive JSFields where
  | nil : JSFields
  | cons (key : String) (value : JS) (tail : JSFields) : JSFields
  deriving DecidableEq, Repr
end

namespace JSList

/-- Convert to a Lean list (for stating list-shaped properties). -/
def toList : JSList → List JS
  | .nil => []
  | .cons x xs => x :: toList xs

/-- Build from a Lean list. -/
def ofList : List JS → JSList
  | [] => .nil
  | x :: xs => .cons x (ofList xs)

/-- Number of elements. -/
def length : JSList → Nat
  | .nil => 0
  | .cons _ xs => length xs + 1

/-- Membership test via strict equality (JS `indexOf(v) !== -1`). -/
def containsVal : JSList → JS → Bool
  | .nil, _ => false
  | .cons x xs, v => x == v || containsVal xs v

/-- Append one element at the end (JS `push` / array spread). -/
def pushVal : JSList → JS → JSList
  | .nil, v => .cons v .nil
  | .cons x xs, v => .cons x (pushVal xs v)

/-- Keep elements satisfying the predicate (JS `Array.prototype.filter`). -/
def filterVals : JSList → (JS → Bool) → JSList
  | .nil, _ => .nil
  | .cons x xs, p => if p x then .cons x (filterVals xs p) else filterVals xs p

/-- Remove the first occurrence of a value (JS `splice(indexOf(v), 1)`). -/
def removeFirst : JSList → JS → JSList
  | .nil, _ => .nil
  | .cons x xs, v => if x == v then xs else .cons x (removeFirst xs v)

theorem toList_ofList : ∀ (xs : List JS), toList (ofList xs) = xs
  | [] => rfl
  | x :: xs => by simp [ofList, toList, toList_ofList xs]

theorem ofList_toList : ∀ (xs : JSList), ofList (toList xs) = xs
  | .nil => rfl
  | .cons x xs => by simp [ofList, toList, ofList_toList xs]

theorem length_toList : ∀ (xs : JSList), (toList xs).length = length xs
  | .nil => rfl
  | .cons x xs => by simp [toList, length, length_toList xs]

theorem containsVal_iff_mem : ∀ (xs : JSList) (v : JS),
    containsVal xs v = true ↔ v ∈ toList xs
  | .nil, v => by simp [containsVal, toList]
  | .cons x xs, v => by
      simp only [containsVal, toList, List.mem_cons, Bool.or_eq_true, beq_iff_eq,
        containsVal_iff_mem xs v]
      constructor
      · rintro (rfl | h)
        · exact Or.inl rfl
        · exact Or.inr h
      · rintro (rfl | h)
        · exact Or.inl rfl
        · exact Or.inr h

end JSList

namespace JSFields

/-- Key of the first field, value of the first field, etc: association-list
view used to state lemmas. -/
def toList : JSFields → List (String × JS)
  | .nil => []
  | .cons k v fs => (k, v) :: toList fs

/-- All keys, in insertion order. -/
def keys : JSFields → List String
  | .nil => []
  | .cons k _ fs => k :: keys fs

/-- JS `key in obj`: key presence (regardless of the stored value). -/
def hasKey : JSFields → String → Bool
  | .nil, _ => false
  | .cons k _ fs, key => k == key || hasKey fs key

/-- JS `obj[key]` read: value of the first matching field, `undefined`
when absent. -/
def get : JSFields → String → JS
  | .nil, _ => .undef
  | .cons k v fs, key => if k == key then v else get fs key

/-- JS `obj[key] = v`: replace the value in place when the key exists,
append the field otherwise. -/
def set : JSFields → String → JS → JSFields
  | .nil, key, v => .cons key v .nil
  | .cons k w fs, key, v => if k == key then .cons k v fs else .cons k w (set fs key v)

/-- JS `delete obj[key]`. -/
def del : JSFields → String → JSFields
  | .nil, _ => .nil
  | .cons k v fs, key => if k == key then fs else .cons k v (del fs key)

/-- Build a field list from an association list. -/
def ofList : List (String × JS) → JSFields
  | [] => .nil
  | (k, v) :: fs => .cons k v (ofList fs)

/-- The JS invariant: an object never stores the same key twice. -/
def keysUnique (fs : JSFields) : Prop := (keys fs).Nodup

instance (fs : JSFields) : Decidable (keysUnique fs) := by
  unfold keysUnique; infer_instance

end JSFields

instance {α β : Type} [DecidableEq α] [DecidableEq β] : DecidableEq (Except α β) := fun a b =>
  match a, b with
  | .error e1, .error e2 =>
      if h : e1 = e2 then isTrue (by rw [h]) else isFalse (by intro hh; cases hh; exact h rfl)
  | .ok v1, .ok v2 =>
      if h : v1 = v2 then isTrue (by rw [h]) else isFalse (by intro hh; cases hh; exact h rfl)
  | .error _, .ok _ => isFalse (by intro h; cases h)
  | .ok _, .error _ => isFalse (by intro h; cases h)

/-- JS truthiness: `undefined`, `null`, `false`, `0` and `""` are falsy,
every other value (including empty arrays and objects) is truthy. -/
def truthy : JS → Bool
  | .undef => false
  | .jnull => false
  | .jbool b => b
  | .jnum n => n != 0
  | .jstr s => s != ""
  | .jarr _ => true
  | .jobj _ => true

/-- JS member read `x[key]`: field lookup on objects, `undefined` on
everything else.  (Numeric index keys on arrays, character indexing of
strings and `length` reads — possible in JS but irrelevant to every
analysed code path — are not modelled and read as `undefined`.) -/
def getProp : JS → String → JS
  | .jobj fs, key => fs.get key
  | _, _ => (.undef)

/-- JS `key in x` (key presence).  Only object keys are modelled. -/
def hasProp : JS → String → Bool
  | .jobj fs, key => fs.hasKey key
  | _, _ => false

/-- JS member write `x[key] = v`.  On non-objects the write is dropped
(assignment to a primitive property is a no-op in sloppy mode; array
index/expando writes never occur on the analysed paths). -/
def setProp : JS → String → JS → JS
  | .jobj fs, key, v => .jobj (fs.set key v)
  | x, _, _ => x

/-- JS `delete x[key]` restricted to objects. -/
def delProp : JS → String → JS
  | .jobj fs, key => .jobj (fs.del key)
  | x, _ => x

/-- `Object.keys(x)` (arrays and strings would contribute index keys;
not needed on the analysed paths). -/
def keysOf : JS → List String
  | .jobj fs => fs.keys
  | _ => []

mutual
/-- `String(x)` as used by `Array.prototype.toString`/`join`: the element
rendering in which `null` and `undefined` become the empty string. -/
def joinElemString : JS → String
  | .undef => ""
  | .jnull => ""
  | .jbool b => if b then "true" else "false"
  | .jnum n => toString n
  | .jstr s => s
  | .jarr xs => arrJoinString xs
  | .jobj _ => "[object Object]"
/-- `Array.prototype.toString` = `join(",")`. -/
def arrJoinString : JSList → String
  | .nil => ""
  | .cons x .nil => joinElemString x
  | .cons x (.cons y ys) => joinElemString x ++ "," ++ arrJoinString (.cons y ys)
end

/-!
## Default.ts — the defaults resolver

Faithful embedding of `src/Default.ts` (based on the json-schema-defaults
package).  `defaults` can recurse through `$ref`/`allOf` into values that
are not structurally smaller (and diverges in JS on cyclic definitions),
so it takes an explicit fuel parameter; exhausted fuel yields `undefined`.
-/

/-- `isObject(item)`: `typeof item === 'object' && item !== null &&
item.toString() === {}.toString()`.  True for plain objects, and — via the
default `toString` — also for arrays whose join happens to render as
`"[object Object]"` (e.g. a singleton array holding a plain object). -/
def isObject : JS → Bool
  | .jobj _ => true
  | .jarr xs => arrJoinString xs == "[object Object]"
  | _ => false

mutual
/-- `cloneJSON(source) = JSON.parse(JSON.stringify(source))`: structural
copy that drops object entries whose value is `undefined` and turns
`undefined` array elements into `null` (the `JSON.stringify` rules).
A top-level `undefined` would make `JSON.parse` throw in JS; that case is
unreachable in the source and modelled as the identity. -/
def cloneJSON : JS → JS
  | .undef => .undef
  | .jnull => .jnull
  | .jbool b => .jbool b
  | .jnum n => .jnum n
  | .jstr s => .jstr s
  | .jarr xs => .jarr (cloneJSONList xs)
  | .jobj fs => .jobj (cloneJSONFields fs)
def cloneJSONList : JSList → JSList
  | .nil => .nil
  | .cons x xs =>
      .cons (match x with | .undef => .jnull | y => cloneJSON y) (cloneJSONList xs)
def cloneJSONFields : JSFields → JSFields
  | .nil => .nil
  | .cons k v fs =>
      match v with
      | .undef => cloneJSONFields fs
      | w => .cons k (cloneJSON w) (cloneJSONFields fs)
end

mutual
/-- `merge(target, source)`: clone the target, then for every own key of
the source either recurse (when both current values satisfy `isObject`)
or overwrite with the source value.  The source operand wins.  A
non-object source contributes nothing (`for..in` over a primitive is
empty; `for..in` over an array or string source would enumerate index
keys — such sources never occur for definitions and are modelled as
empty). -/
def merge (target source : JS) : JS :=
  match source with
  | .jobj fs => mergeFields (cloneJSON target) fs
  | _ => cloneJSON target
def mergeFields (target : JS) : JSFields → JS
  | .nil => target
  | .cons k v fs =>
      let cur := getProp target k
      let target' :=
        if isObject cur && isObject v then setProp target k (merge cur v)
        else setProp target k v
      mergeFields target' fs
end

/-- The `find` closure of `getLocalRef`: walk the definitions object one
path segment at a time; a falsy value at any segment yields `{}`.  (An
empty segment list cannot arise from `split`; JS would then read the key
`"undefined"`, which is modelled faithfully.) -/
def findPath : List String → JS → JS
  | [], root =>
      if truthy (getProp root "undefined") then getProp root "undefined" else .jobj .nil
  | key :: rest, root =>
      let v := getProp root key
      if ¬truthy v then .jobj .nil
      else if rest.isEmpty then v
      else findPath rest v

/-- Character-level prefix test (JS string semantics, kernel-computable). -/
def charsStartWith : List Char → List Char → Bool
  | _, [] => true
  | [], _ :: _ => false
  | c :: cs, d :: ds => c == d && charsStartWith cs ds

/-- JS `String.prototype.split(sep)` on character lists: every separator
occurrence cuts, the empty string splits to `[""]`. -/
def splitCharsOn (sep : Char) : List Char → List Char → List String
  | [], acc => [String.mk acc.reverse]
  | c :: rest, acc =>
      if c = sep then String.mk acc.reverse :: splitCharsOn sep rest []
      else splitCharsOn sep rest (c :: acc)

/-- `path.replace(/^#\/definitions\//, '').split('/')`: drop one leading
`#/definitions/` (14 characters) when present, then split on `/`. -/
def refPathSegments (path : String) : List String :=
  let cs :=
    if charsStartWith path.data ("#/definitions/").data then path.data.drop 14 else path.data
  splitCharsOn '/' cs []

/-- `getLocalRef(path, definitions)`: strip one leading `#/definitions/`,
split on `/`, walk with `findPath`; clone composite results, return
primitives unchanged. -/
def getLocalRef (path : String) (definitions : JS) : JS :=
  let result := findPath (refPathSegments path) definitions
  if isObject result then cloneJSON result else result

/-- `$ref` values are strings on every analysed path; a non-string `$ref`
would make `path.replace` throw in JS and is modelled as resolving to
`{}`. -/
def getLocalRefJS : JS → JS → JS
  | .jstr s, definitions => getLocalRef s definitions
  | _, _ => .jobj .nil

/-- The `while` loop of `mergeAllOf`. -/
def mergeAllOfList : JSList → JS → JS → JS
  | .nil, _, acc => acc
  | .cons item rest, definitions, acc =>
      let item' :=
        if getProp item "$ref" != JS.undef then getLocalRefJS (getProp item "$ref") definitions
        else item
      mergeAllOfList rest definitions (merge acc item')

/-- `mergeAllOf(allOfList, definitions)`: left fold of `merge` over the
branches, resolving a branch-level `$ref` first.  A non-array `allOf`
value has no (numeric) `length` in JS, so the loop body never runs and
the result is `{}`. -/
def mergeAllOf (allOfList : JS) (definitions : JS) : JS :=
  match allOfList with
  | .jarr xs => mergeAllOfList xs definitions (.jobj .nil)
  | _ => .jobj .nil

/-- The trimming loop of the tuple-array case of `defaults`: iterate `i`
from the end of `values`; stop at the first defined entry; pop trailing
`undefined` entries only while `i + 1 > ct`.  The list argument is the
reversed tail still to be examined and `i` is the index of its head in
the original array. -/
def tupleTrimAux (ct : Int) : List JS → Int → List JS
  | [], _ => []
  | v :: rest, i =>
      if v != JS.undef then v :: rest
      else if i + 1 > ct then tupleTrimAux ct rest (i - 1)
      else v :: rest

/-- Remove trailing "no default" entries of a tuple default, never
popping an entry at a position below the `minItems` count `ct`. -/
def tupleTrim (ct : Int) (values : List JS) : List JS :=
  (tupleTrimAux ct values.reverse ((values.length : Int) - 1)).reverse

/-- `defaults(schema, definitions)`: compute the default value implied by
a schema; `JS.undef` is the "no default" result.  Fuel bounds the
recursion depth (`$ref`/`allOf` chains can diverge in the source).  The
object case iterates over the properties, replacing each by its computed
default and deleting those whose default is `undefined`; the array case
distinguishes tuple items (trim trailing `undefined` entries down to
`minItems`) from a homogeneous item schema (`max(1, minItems)` clones of
the item default). -/
def defaults : Nat → JS → JS → JS
  | 0, _, _ => .undef
  | fuel + 1, schema, definitions =>
      if getProp schema "default" != JS.undef then getProp schema "default"
      else if getProp schema "allOf" != JS.undef then
        defaults fuel (mergeAllOf (getProp schema "allOf") definitions) definitions
      else if getProp schema "$ref" != JS.undef then
        defaults fuel (getLocalRefJS (getProp schema "$ref") definitions) definitions
      else if getProp schema "type" == JS.jstr "object" then
        if ¬truthy (getProp schema "properties") then .jobj .nil
        else
          match getProp schema "properties" with
          | .jobj pfs =>
              .jobj (JSFields.ofList
                ((pfs.toList.map (fun kv => (kv.1, defaults fuel kv.2 definitions))).filter
                  (fun kv => kv.2 != JS.undef)))
          | .jarr xs =>
              .jarr (JSList.ofList (xs.toList.map (fun x => defaults fuel x definitions)))
          | other => other
      else if getProp schema "type" == JS.jstr "array" then
        let items := getProp schema "items"
        if ¬truthy items then .jarr .nil
        else
          let ct : Int := match getProp schema "minItems" with | .jnum m => m | _ => 0
          match items with
          | .jarr xs =>
              .jarr (JSList.ofList
                (tupleTrim ct (xs.toList.map (fun x => defaults fuel x definitions))))
          | _ =>
              let value := defaults fuel items definitions
              if value == JS.undef then .jarr .nil
              else .jarr (JSList.ofList (List.replicate (max 1 ct).toNat (cloneJSON value)))
      else (.undef)

/-- The definitions map `DefaultObject` actually resolves against: the
caller-supplied map when the document carries no (plain-object)
`definitions` of its own, otherwise `merge(callerMap, schema.definitions)`
— in which the document's own entries are the `merge` *source* and hence
override the caller's. -/
def effectiveDefinitions (schema : JS) (definitions : Option JS) : JS :=
  match definitions with
  | none =>
      if truthy (getProp schema "definitions") then getProp schema "definitions" else .jobj .nil
  | some d =>
      if isObject (getProp schema "definitions") then merge d (getProp schema "definitions")
      else d

/-- `DefaultObject(schema, definitions)`: the exported entry point of
Default.ts. -/
def DefaultObject (fuel : Nat) (schema : JS) (definitions : Option JS) : JS :=
  defaults fuel (cloneJSON schema) (effectiveDefinitions schema definitions)

/-!
## utils.ts — deep traversal and structural clone

`ThroughJsonSchema(schema, action)` is used by the `SchemaBuilder`
constructor with the single action "throw when the node has a `$ref`
key".  The embedding specialises the traversal to that action and
computes whether some visited node carries a `$ref` key.  The traversal
is driven here by a single walk over the field list; since a JS object
never stores a key twice, this agrees with the source's keyed accesses.
-/

mutual
/-- Does `ThroughJsonSchema` visit a node carrying a `$ref` key?  Arrays
recurse element-wise with no action on the array itself; non-objects are
ignored; on an object the action fires, then the traversal descends into
`properties` values, `oneOf`/`allOf`/`anyOf` branches, `items`, `not`,
and a schema-valued `additionalProperties`. -/
def throughHasRef : JS → Bool
  | .jarr xs => throughHasRefList xs
  | .jobj fs => fs.hasKey "$ref" || throughHasRefFields fs
  | _ => false
def throughHasRefFields : JSFields → Bool
  | .nil => false
  | .cons k v rest =>
      (if k == "properties" && truthy v then throughPropsVal v
       else if (k == "oneOf" || k == "allOf" || k == "anyOf") && truthy v then throughBranchesVal v
       else if (k == "items" || k == "not") && truthy v then throughHasRef v
       else if k == "additionalProperties" && truthy v
            && !(match v with | .jbool _ => true | _ => false) then throughHasRef v
       else false)
      || throughHasRefFields rest
/-- `for (property in schema.properties)` descends into each value; a
`for..in` over an array-valued `properties` enumerates its indices, i.e.
its elements. -/
def throughPropsVal : JS → Bool
  | .jobj pfs => throughPropsFields pfs
  | .jarr xs => throughHasRefList xs
  | _ => false
def throughPropsFields : JSFields → Bool
  | .nil => false
  | .cons _ v rest => throughHasRef v || throughPropsFields rest
/-- `schema.oneOf.forEach(...)`: only arrays have `forEach`; a truthy
non-array value here is outside the `JSONSchema` input type. -/
def throughBranchesVal : JS → Bool
  | .jarr xs => throughHasRefList xs
  | _ => false
def throughHasRefList : JSList → Bool
  | .nil => false
  | .cons x rest => throughHasRef x || throughHasRefList rest
end

mutual
/-- Does the document contain a `$ref` key *anywhere* — in any nested
object, including positions the traversal never visits (`definitions`,
keyword values such as `default`, …)? -/
def containsRefAnywhere : JS → Bool
  | .jobj fs => fs.hasKey "$ref" || containsRefFields fs
  | .jarr xs => containsRefList xs
  | _ => false
def containsRefFields : JSFields → Bool
  | .nil => false
  | .cons _ v rest => containsRefAnywhere v || containsRefFields rest
def containsRefList : JSList → Bool
  | .nil => false
  | .cons x rest => containsRefAnywhere x || containsRefList rest
end

/-!
## SchemaBuilder.ts — the schema algebra

Every operation clones its schema with the structural `CloneJSON` of
utils.ts before mutating; on pure values a deep structural copy is the
identity, so the embedding threads the value directly.  Each operation
hands its result to `new SchemaBuilder(...)`; the constructor re-runs the
`$ref` check, which never fires again on the analysed operations (they
only rearrange nodes of an already accepted document and introduce
`$ref`-free nodes), so the embedding returns the transformed schema
directly.  Operations return `Except`: `.error` is the thrown `VError`
message of the precondition check.
-/

namespace SchemaBuilder

/-- The constructor: reject (via `ThroughJsonSchema`) any document whose
*visited* nodes carry `$ref`. -/
def mkSchemaBuilder (schemaObject : JS) : Except String JS :=
  if throughHasRef schemaObject then
    .error "Schema Builder Error: $ref cant be used to initialize a SchemaBuilder. Dereferenced the schema first."
  else .ok schemaObject

/-- `IsObjectSchema`: type is `object`, or type is absent and
`properties` is present. -/
def IsObjectSchema (s : JS) : Bool :=
  getProp s "type" == JS.jstr "object" || (!(hasProp s "type") && hasProp s "properties")

/-- `HasAdditionalProperties`: object schema whose `additionalProperties`
is not explicitly `false`. -/
def HasAdditionalProperties (s : JS) : Bool :=
  IsObjectSchema s && !(getProp s "additionalProperties" == JS.jbool false)

/-- `HasSchemasCombinationKeywords`. -/
def HasSchemasCombinationKeywords (s : JS) : Bool :=
  hasProp s "oneOf" || hasProp s "allOf" || hasProp s "anyOf" || hasProp s "not"

/-- `IsSimpleObjectSchema`. -/
def IsSimpleObjectSchema (s : JS) : Bool :=
  IsObjectSchema s && !HasAdditionalProperties s && !HasSchemasCombinationKeywords s

/-- `x || {}` as used for `schemaObject.properties = schemaObject.properties || {}`. -/
def orEmptyObj (v : JS) : JS := if truthy v then v else .jobj .nil

/-- `x || []` as used for `schemaObject.required = schemaObject.required || []`. -/
def orEmptyArr (v : JS) : JS := if truthy v then v else .jarr .nil

/-- `x && x.indexOf(v) !== -1` on a (possibly absent) array value. -/
def jsArrContains (x : JS) (v : JS) : Bool :=
  match x with
  | .jarr xs => xs.containsVal v
  | _ => false

/-- `x.push(v)` on an array value (no-op otherwise; a non-array here is
outside the `JSONSchema` type). -/
def jsPush (x : JS) (v : JS) : JS :=
  match x with
  | .jarr xs => .jarr (xs.pushVal v)
  | _ => x

/-- `x.filter(p)` on an array value. -/
def jsFilter (x : JS) (p : JS → Bool) : JS :=
  match x with
  | .jarr xs => .jarr (xs.filterVals p)
  | _ => x

/-- `propertiesMap`: `for (property of properties) propertiesMap[property]
= schemaObject.properties[property]` (an absent source name stores the
key with value `undefined`, exactly as the JS assignment does). -/
def pickMap (props : JS) (names : List String) : JS :=
  names.foldl (fun m p => setProp m p (getProp props p)) (.jobj .nil)

/-- `if (schemaObject.required) schemaObject.required =
schemaObject.required.filter(...)` — a truthy non-array `required`
(outside the `JSONSchema` type, `.filter` would throw) is left alone. -/
def pickFilterRequired (s2 : JS) (names : List String) : JS :=
  match getProp s2 "required" with
  | .jarr xs =>
      setProp s2 "required" (.jarr (xs.filterVals (fun r => names.any (fun n => r == .jstr n))))
  | _ => s2

/-- `if (Array.isArray(required) && required.length === 0) delete required`. -/
def pickDropEmptyRequired (s3 : JS) : JS :=
  if getProp s3 "required" == JS.jarr .nil then delProp s3 "required" else s3

/-- `PickProperties(properties)`: precondition `IsObjectSchema` and no
combinator keywords (note: `additionalProperties` is *not* checked);
keep exactly the named properties, filter `required` to the named set,
delete an emptied `required`, force `additionalProperties = false`. -/
def PickProperties (s : JS) (names : List String) : Except String JS :=
  if !(IsObjectSchema s) || HasSchemasCombinationKeywords s then
    .error "Schema Builder Error: pickProperties can only be used with a simple object schema (no oneOf, anyOf, allOf or not)"
  else
    .ok (setProp
      (pickDropEmptyRequired
        (pickFilterRequired
          (setProp (setProp s "properties" (orEmptyObj (getProp s "properties")))
            "properties"
            (pickMap (getProp (setProp s "properties" (orEmptyObj (getProp s "properties"))) "properties") names))
          names))
      "additionalProperties" (.jbool false))

/-- `OmitProperties(properties)`: requires `IsSimpleObjectSchema`, then
delegates to `PickProperties` on the complement of the declared keys. -/
def OmitProperties (s : JS) (names : List String) : Except String JS :=
  if !(IsSimpleObjectSchema s) then
    .error "Schema Builder Error: omitProperties can only be used with a simple object schema (no additionalProperties, oneOf, anyOf, allOf or not)"
  else
    let p := (keysOf (orEmptyObj (getProp s "properties"))).filter (fun k => !(names.contains k))
    PickProperties s p

/-- One iteration of the `for (propertyKey in schemaObject2.properties)`
loop of `MergeProperties`: add an absent property (pushing it onto
`required` when `schemaObject2` requires it), wrap a present property in
`anyOf: [this, other]` and demote it when `this` requires it but
`schemaObject2` does not. -/
def mergePropsStep (req2 s1 : JS) (k : String) (v : JS) : JS :=
  if !(hasProp (getProp s1 "properties") k) then
    (if jsArrContains req2 (.jstr k) then
      setProp
        (setProp (setProp s1 "properties" (setProp (getProp s1 "properties") k v))
          "required"
          (orEmptyArr (getProp (setProp s1 "properties" (setProp (getProp s1 "properties") k v)) "required")))
        "required"
        (jsPush
          (getProp
            (setProp (setProp s1 "properties" (setProp (getProp s1 "properties") k v))
              "required"
              (orEmptyArr (getProp (setProp s1 "properties" (setProp (getProp s1 "properties") k v)) "required")))
            "required")
          (.jstr k))
    else setProp s1 "properties" (setProp (getProp s1 "properties") k v))
  else
    (if jsArrContains
          (getProp (setProp s1 "properties"
            (setProp (getProp s1 "properties") k
              (.jobj (.cons "anyOf" (.jarr (.cons (getProp (getProp s1 "properties") k) (.cons v .nil))) .nil)))) "required")
          (.jstr k)
        && !(jsArrContains req2 (.jstr k)) then
      setProp
        (setProp s1 "properties"
          (setProp (getProp s1 "properties") k
            (.jobj (.cons "anyOf" (.jarr (.cons (getProp (getProp s1 "properties") k) (.cons v .nil))) .nil))))
        "required"
        (jsFilter
          (getProp (setProp s1 "properties"
            (setProp (getProp s1 "properties") k
              (.jobj (.cons "anyOf" (.jarr (.cons (getProp (getProp s1 "properties") k) (.cons v .nil))) .nil)))) "required")
          (fun p => !(p == .jstr k)))
    else
      setProp s1 "properties"
        (setProp (getProp s1 "properties") k
          (.jobj (.cons "anyOf" (.jarr (.cons (getProp (getProp s1 "properties") k) (.cons v .nil))) .nil))))

/-- The `for (propertyKey in schemaObject2.properties)` loop of
`MergeProperties`, threading the mutated `schemaObject1`. -/
def mergePropsLoop (req2 : JS) : JS → JSFields → JS
  | s1, .nil => s1
  | s1, .cons k v rest => mergePropsLoop req2 (mergePropsStep req2 s1 k v) rest

/-- `MergeProperties(other)`: add absent properties (carrying `other`'s
required status), wrap common properties in `anyOf: [this, other]`, and
demote a common property to optional exactly when `this` required it and
`other` did not. -/
def MergeProperties (s1 s2 : JS) : Except String JS :=
  if !(IsSimpleObjectSchema s1) then
    .error "Schema Builder Error: mergeProperties can only be used with a simple object schema (no additionalProperties, oneOf, anyOf, allOf or not)"
  else
    match getProp s2 "properties" with
    | .jobj p2 =>
        .ok (mergePropsLoop (getProp s2 "required")
              (setProp s1 "properties" (orEmptyObj (getProp s1 "properties"))) p2)
    | _ => .ok s1

/-- `anyOf: [propertyValue, { type: "null" }]`. -/
def anyOfNullWrap (pv : JS) : JS :=
  .jobj (.cons "anyOf" (.jarr (.cons pv (.cons (.jobj (.cons "type" (.jstr "null") .nil)) .nil))) .nil)

/-- The `type`-widening step of the `ToNullable` loop body: append
`"null"` to a type array lacking it, widen a scalar type other than
`"null"` to a two-element array, leave anything else alone. -/
def typeNullWiden (pf : JSFields) : JSFields :=
  match pf.get "type" with
  | .jarr ts =>
      if !(ts.containsVal (.jstr "null")) then pf.set "type" (.jarr (ts.pushVal (.jstr "null")))
      else pf
  | .jstr ty =>
      if ty != "null" then pf.set "type" (.jarr (.cons (.jstr ty) (.cons (.jstr "null") .nil)))
      else pf
  | _ => pf

/-- The `enum`-widening step of the `ToNullable` loop body: append
`null` to an `enum` array lacking it. -/
def enumNullAdjust (pf1 : JSFields) : JSFields :=
  if pf1.hasKey "enum" then
    match pf1.get "enum" with
    | .jarr es => if !(es.containsVal .jnull) then pf1.set "enum" (.jarr (es.pushVal .jnull)) else pf1
    | _ => pf1
  else pf1

/-- The body of the `ToNullable` property loop for one optional property
value: widen the declared `type` and `enum` as above when a `type` key
is present; values without a `type` key (including `true` / `false`
schemas) are wrapped in `anyOf` with `{ type: "null" }`. -/
def toNullableValue (pv : JS) : JS :=
  match pv with
  | .jobj pf =>
      if pf.hasKey "type" then .jobj (enumNullAdjust (typeNullWiden pf))
      else anyOfNullWrap pv
  | _ => anyOfNullWrap pv

/-- The `for (propertyName in schemaObject.properties)` loop of
`ToNullable` over the (initial) property keys. -/
def toNullableLoop (required : JS) : JS → List String → JS
  | s, [] => s
  | s, name :: rest =>
      toNullableLoop required
        (if jsArrContains required (.jstr name) then s
         else
           setProp s "properties"
             (setProp (getProp s "properties") name
               (toNullableValue (getProp (getProp s "properties") name))))
        rest

/-- `ToNullable()`: requires `IsSimpleObjectSchema`; required properties
are left untouched, optional ones are widened to accept `null`. -/
def ToNullable (s : JS) : Except String JS :=
  if !(IsSimpleObjectSchema s) then
    .error "Schema Builder Error: toNullable can only be used with a simple object schema (no additionalProperties, oneOf, anyOf, allOf or not)"
  else
    .ok (toNullableLoop (orEmptyArr (getProp s "required")) s (keysOf (getProp s "properties")))

/-- `RenameProperty(propertyName, newPropertyName)`: requires
`IsSimpleObjectSchema`; move the schema from the old key to the new one,
renaming the `required` entry in place; an absent old key leaves the
document unchanged (apart from materialising `properties`). -/
def RenameProperty (s : JS) (oldName newName : String) : Except String JS :=
  if !(IsSimpleObjectSchema s) then
    .error "Schema Builder Error: renameProperty can only be used with a simple object schema (no additionalProperties, oneOf, anyOf, allOf or not)"
  else
    let s1 := setProp s "properties" (orEmptyObj (getProp s "properties"))
    let props := getProp s1 "properties"
    if hasProp props oldName then
      let props2 := delProp (setProp props newName (getProp props oldName)) oldName
      let s2 := setProp s1 "properties" props2
      if jsArrContains (getProp s2 "required") (.jstr oldName) then
        .ok (setProp s2 "required"
              (jsPush (match getProp s2 "required" with
                       | .jarr xs => .jarr (xs.removeFirst (.jstr oldName))
                       | r => r) (.jstr newName)))
      else .ok s2
    else .ok s1

end SchemaBuilder

/-!
## Reference semantics for the accessors (C2)

`GetSubschema` / `GetItemsSubschema` pass `this.schemaObject.properties[name]`
(resp. `this.schemaObject.items`) straight to `new SchemaBuilder(...)`.
Whether that wraps a clone or a shared reference is invisible in a value
semantics, so the two accessors are embedded a second time over an
explicit store: values live at addresses, object fields hold addresses,
and two documents share mutable state exactly when they reach a common
address.  The constructor's `$ref` re-check is orthogonal to aliasing
and omitted here.
-/

namespace Heap

/-- A JS heap value: composites hold the addresses of their parts. -/
inductive HVal where
  | hnull : HVal
  | hbool (b : Bool) : HVal
  | hnum (n : Int) : HVal
  | hstr (s : String) : HVal
  | harr (elems : List Nat) : HVal
  | hobj (fields : List (String × Nat)) : HVal
  deriving DecidableEq, Repr

/-- The store: newest binding first. -/
abbrev Store := List (Nat × HVal)

/-- Read the current value at an address. -/
def readStore (sigma : Store) (a : Nat) : Option HVal :=
  match sigma with
  | [] => none
  | (b, v) :: rest => if b = a then some v else readStore rest a

/-- Mutate the value at an address. -/
def writeStore (sigma : Store) (a : Nat) (v : HVal) : Store :=
  (a, v) :: sigma

/-- Address held by field `k` of the object at `a` (JS `obj.k`, as an
address). -/
def fieldAddr (sigma : Store) (a : Nat) (k : String) : Option Nat :=
  match readStore sigma a with
  | some (.hobj fs) => List.lookup k fs
  | _ => none

/-- Value reached by reading field `k` of the object at `a`. -/
def fieldVal (sigma : Store) (a : Nat) (k : String) : Option HVal :=
  match fieldAddr sigma a k with
  | some b => readStore sigma b
  | none => none

/-- Truthiness of a field-read result (`undefined` when the key is
absent). -/
def fieldTruthy (sigma : Store) (a : Nat) (k : String) : Bool :=
  match fieldVal sigma a k with
  | some .hnull => false
  | some (.hbool b) => b
  | some (.hnum n) => n != 0
  | some (.hstr s) => s != ""
  | some (.harr _) => true
  | some (.hobj _) => true
  | none => false

/-- `key in obj` over the store. -/
def hasField (sigma : Store) (a : Nat) (k : String) : Bool :=
  (fieldAddr sigma a k).isSome

/-- `IsObjectSchema` over the store. -/
def IsObjectSchemaH (sigma : Store) (a : Nat) : Bool :=
  fieldVal sigma a "type" == some (.hstr "object")
  || (!(hasField sigma a "type") && hasField sigma a "properties")

/-- `HasAdditionalProperties` over the store. -/
def HasAdditionalPropertiesH (sigma : Store) (a : Nat) : Bool :=
  IsObjectSchemaH sigma a && !(fieldVal sigma a "additionalProperties" == some (.hbool false))

/-- `HasSchemasCombinationKeywords` over the store. -/
def HasSchemasCombinationKeywordsH (sigma : Store) (a : Nat) : Bool :=
  hasField sigma a "oneOf" || hasField sigma a "allOf"
  || hasField sigma a "anyOf" || hasField sigma a "not"

/-- `IsSimpleObjectSchema` over the store. -/
def IsSimpleObjectSchemaH (sigma : Store) (a : Nat) : Bool :=
  IsObjectSchemaH sigma a && !(HasAdditionalPropertiesH sigma a)
  && !(HasSchemasCombinationKeywordsH sigma a)

/-- `GetSubschema(propertyName)` over the store: after the precondition
check, the address stored at `properties[propertyName]` is handed —
unchanged, with no clone — to the new document.  (A missing property
would wrap `undefined`; that path is reported as an error here since an
absent value has no address.) -/
def GetSubschema (sigma : Store) (root : Nat) (name : String) : Except String Nat :=
  if !(IsSimpleObjectSchemaH sigma root) || !(fieldTruthy sigma root "properties") then
    .error "Schema Builder Error: getSubschema can only be used with a simple object schema (no additionalProperties, oneOf, anyOf, allOf or not)"
  else
    match fieldAddr sigma root "properties" with
    | some pa =>
        match readStore sigma pa with
        | some (.hobj pfs) =>
            match List.lookup name pfs with
            | some c => .ok c
            | none => .error "missing property"
        | _ => .error "missing property"
    | none => .error "missing property"

/-- `GetItemsSubschema()` over the store: the address stored at `items`
is handed — unchanged, with no clone — to the new document. -/
def GetItemsSubschema (sigma : Store) (root : Nat) : Except String Nat :=
  if !(fieldVal sigma root "type" == some (.hstr "array"))
     || !(fieldTruthy sigma root "items")
     || (match fieldVal sigma root "items" with | some (.harr _) => true | _ => false) then
    .error "Schema Builder Error: getItemsSubschema can only be used with an array schema with non-array items"
  else
    match fieldAddr sigma root "items" with
    | some c => .ok c
    | none => .error "missing items"

/-- Materialise the value graph at an address into a `JS` value (fuel
bounds the depth; dangling addresses read as `undefined`). -/
def readback : Nat → Store → Nat → JS
  | 0, _, _ => .undef
  | fuel + 1, sigma, a =>
      match readStore sigma a with
      | none => .undef
      | some .hnull => .jnull
      | some (.hbool b) => .jbool b
      | some (.hnum n) => .jnum n
      | some (.hstr s) => .jstr s
      | some (.harr xs) => .jarr (JSList.ofList (xs.map (readback fuel sigma)))
      | some (.hobj fs) => .jobj (JSFields.ofList (fs.map (fun kv => (kv.1, readback fuel sigma kv.2))))

end Heap

/-!
## Basic lemmas about the JS object operations
-/

namespace JSFields

theorem get_set_self : ∀ (fs : JSFields) (k : String) (v : JS), (fs.set k v).get k = v
  | .nil, k, v => by simp [set, get]
  | .cons k' w fs, k, v => by
      by_cases h : k' = k
      · simp [set, get, h]
      · simp [set, get, h, get_set_self fs k v]

theorem get_set_ne : ∀ (fs : JSFields) (k : String) (v : JS) (k' : String), k ≠ k' →
    (fs.set k v).get k' = fs.get k'
  | .nil, k, v, k', h => by simp [set, get, h]
  | .cons k0 w fs, k, v, k', h => by
      by_cases h0 : k0 = k
      · subst h0
        simp only [set, beq_self_eq_true, if_pos rfl, get, beq_iff_eq]
        rw [if_neg h, if_neg h]
      · simp only [set, beq_iff_eq, if_neg h0, get]
        by_cases h1 : k0 = k'
        · rw [if_pos h1, if_pos h1]
        · rw [if_neg h1, if_neg h1]
          exact get_set_ne fs k v k' h

theorem hasKey_set : ∀ (fs : JSFields) (k : String) (v : JS) (k' : String),
    (fs.set k v).hasKey k' = ((k == k') || fs.hasKey k')
  | .nil, k, v, k' => by simp [set, hasKey]
  | .cons k0 w fs, k, v, k' => by
      by_cases h0 : k0 = k
      · subst h0
        simp [set, hasKey]
      · simp only [set, beq_iff_eq, if_neg h0, hasKey]
        rw [hasKey_set fs k v k']
        cases h1 : (k0 == k') <;> cases h2 : (k == k') <;> simp

theorem hasKey_iff_mem_keys : ∀ (fs : JSFields) (k : String),
    fs.hasKey k = true ↔ k ∈ fs.keys
  | .nil, k => by simp [hasKey, keys]
  | .cons k0 v fs, k => by
      simp only [hasKey, keys, List.mem_cons, Bool.or_eq_true, beq_iff_eq,
        hasKey_iff_mem_keys fs k]
      constructor
      · rintro (rfl | h)
        · exact Or.inl rfl
        · exact Or.inr h
      · rintro (rfl | h)
        · exact Or.inl rfl
        · exact Or.inr h

theorem set_get_self_of_hasKey : ∀ (fs : JSFields) (k : String), fs.hasKey k = true →
    fs.set k (fs.get k) = fs
  | .nil, k, h => by simp [hasKey] at h
  | .cons k0 v fs, k, h => by
      by_cases h0 : k0 = k
      · subst h0
        simp [set, get]
      · simp only [hasKey, Bool.or_eq_true, beq_iff_eq] at h
        rcases h with h | h
        · exact absurd h h0
        · simp only [set, get, beq_iff_eq, if_neg h0]
          rw [set_get_self_of_hasKey fs k h]

theorem get_eq_undef_of_not_hasKey : ∀ (fs : JSFields) (k : String),
    fs.hasKey k = false → fs.get k = JS.undef
  | .nil, k, _ => rfl
  | .cons k0 v fs, k, h => by
      simp only [hasKey, Bool.or_eq_false_iff, beq_eq_false_iff_ne] at h
      simp only [get, beq_iff_eq, if_neg h.1]
      exact get_eq_undef_of_not_hasKey fs k h.2

theorem keys_set_of_hasKey : ∀ (fs : JSFields) (k : String) (v : JS),
    fs.hasKey k = true → (fs.set k v).keys = fs.keys
  | .nil, k, v, h => by simp [hasKey] at h
  | .cons k0 w fs, k, v, h => by
      by_cases h0 : k0 = k
      · subst h0
        simp [set, keys]
      · simp only [hasKey, Bool.or_eq_true, beq_iff_eq] at h
        rcases h with h | h
        · exact absurd h h0
        · simp only [set, keys, beq_iff_eq, if_neg h0]
          rw [keys_set_of_hasKey fs k v h]

theorem get_del_ne : ∀ (fs : JSFields) (k k' : String), k ≠ k' →
    (fs.del k).get k' = fs.get k'
  | .nil, k, k', _ => rfl
  | .cons k0 v fs, k, k', h => by
      by_cases h0 : k0 = k
      · subst h0
        have h' : ¬(k0 = k') := h
        simp [del, get, h']
      · by_cases h1 : k0 = k'
        · have h2 : ¬(k' = k) := fun hh => h hh.symm
          simp [del, get, h0, h1, h2]
        · simp [del, get, h0, h1, get_del_ne fs k k' h]

theorem hasKey_del_of_nodup : ∀ (fs : JSFields) (k : String), fs.keysUnique →
    (fs.del k).hasKey k = false
  | .nil, k, _ => rfl
  | .cons k0 v fs, k, h => by
      have h' : (keys fs).Nodup := (List.nodup_cons.mp h).2
      by_cases h0 : k0 = k
      · subst h0
        have hnm : k0 ∉ keys fs := (List.nodup_cons.mp h).1
        simp only [del, beq_self_eq_true, if_true]
        cases hh : hasKey fs k0
        · rfl
        · exact absurd ((hasKey_iff_mem_keys fs k0).mp hh) hnm
      · simp [del, hasKey, h0, hasKey_del_of_nodup fs k h']

end JSFields

theorem getProp_setProp_self (fs : JSFields) (k : String) (v : JS) :
    getProp (setProp (JS.jobj fs) k v) k = v := by
  simp [setProp, getProp, JSFields.get_set_self]

theorem getProp_setProp_ne (t : JS) (k : String) (v : JS) (k' : String) (h : k ≠ k') :
    getProp (setProp t k v) k' = getProp t k' := by
  cases t <;> simp [setProp, getProp]
  exact JSFields.get_set_ne _ k v k' h

theorem hasProp_setProp (fs : JSFields) (k : String) (v : JS) (k' : String) :
    hasProp (setProp (JS.jobj fs) k v) k' = ((k == k') || hasProp (JS.jobj fs) k') := by
  simp [setProp, hasProp, JSFields.hasKey_set]

/-- `mergeFields` keeps the target an object. -/
theorem mergeFields_jobj : ∀ (fs : JSFields) (tfs : JSFields),
    ∃ rfs, mergeFields (JS.jobj tfs) fs = JS.jobj rfs
  | .nil, tfs => ⟨tfs, rfl⟩
  | .cons k v fs, tfs => by
      rw [mergeFields]
      by_cases h : (isObject (getProp (JS.jobj tfs) k) && isObject v) = true
      · rw [if_pos h]
        exact mergeFields_jobj fs _
      · rw [if_neg h]
        exact mergeFields_jobj fs _

/-- A key not named by any remaining source field keeps its target
value through the `merge` loop. -/
theorem mergeFields_get_of_not_hasKey : ∀ (fs : JSFields) (t : JS) (k : String),
    fs.hasKey k = false → getProp (mergeFields t fs) k = getProp t k
  | .nil, t, k, _ => rfl
  | .cons k0 v fs, t, k, h => by
      simp only [JSFields.hasKey, Bool.or_eq_false_iff, beq_eq_false_iff_ne] at h
      rw [mergeFields]
      by_cases hc : (isObject (getProp t k0) && isObject v) = true
      · rw [if_pos hc, mergeFields_get_of_not_hasKey fs _ k h.2,
          getProp_setProp_ne _ _ _ _ h.1]
      · rw [if_neg hc, mergeFields_get_of_not_hasKey fs _ k h.2,
          getProp_setProp_ne _ _ _ _ h.1]

/-- Through the `merge` loop, a source key holding a non-`isObject`
value ends up bound to exactly that source value: the source (the
document's own definitions) overrides the target (the caller's map). -/
theorem mergeFields_get_of_source : ∀ (fs : JSFields) (tfs : JSFields) (k : String) (v : JS),
    fs.keysUnique → fs.hasKey k = true → fs.get k = v → isObject v = false →
    getProp (mergeFields (JS.jobj tfs) fs) k = v
  | .nil, tfs, k, v, _, hk, _, _ => by simp [JSFields.hasKey] at hk
  | .cons k0 v0 fs, tfs, k, v, huniq, hk, hv, hno => by
      have huniq' : fs.keysUnique := (List.nodup_cons.mp huniq).2
      by_cases h0 : k0 = k
      · subst h0
        have hv0 : v0 = v := by simpa [JSFields.get] using hv
        subst hv0
        have hnk : fs.hasKey k0 = false := by
          cases hh : fs.hasKey k0
          · rfl
          · exact absurd ((JSFields.hasKey_iff_mem_keys fs k0).mp hh)
              (List.nodup_cons.mp huniq).1
        rw [mergeFields]
        have hc : (isObject (getProp (JS.jobj tfs) k0) && isObject v0) = false := by
          rw [hno]; simp
        rw [if_neg (by simp [hc]), mergeFields_get_of_not_hasKey fs _ k0 hnk,
          getProp_setProp_self]
      · have hk' : fs.hasKey k = true := by
          simpa [JSFields.hasKey, h0] using hk
        have hv' : fs.get k = v := by
          simpa [JSFields.get, h0] using hv
        rw [mergeFields]
        by_cases hc : (isObject (getProp (JS.jobj tfs) k0) && isObject v0) = true
        · rw [if_pos hc]
          obtain ⟨rfs, hr⟩ := mergeFields_jobj JSFields.nil tfs
          have : ∃ ufs, setProp (JS.jobj tfs) k0 (merge (getProp (JS.jobj tfs) k0) v0) = JS.jobj ufs := ⟨_, rfl⟩
          obtain ⟨ufs, hu⟩ := this
          rw [hu]
          exact mergeFields_get_of_source fs ufs k v huniq' hk' hv' hno
        · rw [if_neg hc]
          exact mergeFields_get_of_source fs _ k v huniq' hk' hv' hno

/-!
## Claim C1 — direction of the definitions merge in `DefaultObject`
-/

/-- Concrete C1 input: a document with its own `definitions.a.default = 1`. -/
def c1schema : JS :=
  .jobj (.cons "$ref" (.jstr "#/definitions/a")
    (.cons "definitions" (.jobj (.cons "a" (.jobj (.cons "default" (.jnum 1) .nil)) .nil)) .nil))

/-- Concrete C1 input: a caller map with `a.default = 2`. -/
def c1caller : JS := .jobj (.cons "a" (.jobj (.cons "default" (.jnum 2) .nil)) .nil)

/-- C1 counterexample: for a key (`a`, and inside it `default`) present in
both the document's own `definitions` and the caller-supplied map, the
resolved default is the *document's* value 1, not the caller's value 2
that the claim ("the caller-supplied entry overrides the document's own
entry") predicts. -/
theorem C1_counterexample :
    DefaultObject 10 c1schema (some c1caller) = JS.jnum 1
    ∧ getProp (getProp (effectiveDefinitions c1schema (some c1caller)) "a") "default" = JS.jnum 1
    ∧ getProp (getProp c1caller "a") "default" = JS.jnum 2 := by
  refine ⟨by decide, by decide, by decide⟩

/-- C1 (amended): the effective definitions used by `DefaultObject` are
the deep merge of the caller-supplied map with the document's own
`definitions`, in which — for any key present in the document's map
whose value is not a plain object (the atomic case of the deep merge) —
the *document's* entry overrides the caller-supplied entry. -/
theorem C1_document_definitions_override (schema : JS) (dfs Dfs : JSFields) (k : String) (v : JS)
    (hD : getProp schema "definitions" = JS.jobj Dfs)
    (huniq : Dfs.keysUnique)
    (hk : Dfs.hasKey k = true) (hv : Dfs.get k = v)
    (hatomic : isObject v = false) :
    getProp (effectiveDefinitions schema (some (JS.jobj dfs))) k = v := by
  unfold effectiveDefinitions
  rw [hD]
  simp only [isObject, if_pos rfl]
  rw [merge]
  have : ∃ cfs, cloneJSON (JS.jobj dfs) = JS.jobj cfs := ⟨_, rfl⟩
  obtain ⟨cfs, hc⟩ := this
  rw [hc]
  exact mergeFields_get_of_source Dfs cfs k v huniq hk hv hatomic

/-- C1 witness: the amended override direction at a concrete input with
an atomic definition value. -/
theorem C1_document_definitions_override_witness :
    getProp (effectiveDefinitions (JS.jobj (.cons "definitions" (.jobj (.cons "c" (.jnum 5) .nil)) .nil))
      (some (JS.jobj (.cons "c" (.jnum 7) .nil)))) "c" = JS.jnum 5 := by
  exact C1_document_definitions_override
    (JS.jobj (.cons "definitions" (.jobj (.cons "c" (.jnum 5) .nil)) .nil))
    (.cons "c" (.jnum 7) .nil) (.cons "c" (.jnum 5) .nil) "c" (JS.jnum 5)
    (by decide) (by decide) (by decide) (by decide) (by decide)

/-!
## Claim C10 — falsy definition values resolve like missing ones
-/

/-- C10: during local reference resolution, a path segment whose value in
the definitions mapping is falsy (`false`, `0`, `""`, `null`) is treated
exactly like a missing segment (whose read yields the — equally falsy —
`undefined`): the walk stops and resolution yields the empty mapping
`{}` instead of the stored value, and `getLocalRef` hands that empty
mapping to the default computation. -/
theorem C10_falsy_definition_resolves_empty :
    (∀ (k : String) (rest : List String) (root : JS),
      truthy (getProp root k) = false → findPath (k :: rest) root = JS.jobj .nil)
    ∧ (∀ (p : String) (defs : JS) (k : String) (rest : List String),
        refPathSegments p = k :: rest → truthy (getProp defs k) = false →
        getLocalRef p defs = JS.jobj .nil) := by
  constructor
  · intro k rest root h
    simp [findPath, h]
  · intro p defs k rest hsplit h
    unfold getLocalRef
    rw [hsplit]
    simp [findPath, h, isObject, cloneJSON, cloneJSONFields]

/-- C10 witness: a `$ref` to a definition stored as the falsy number `0`
resolves to `{}`, exactly as a `$ref` to an absent definition does. -/
theorem C10_falsy_definition_resolves_empty_witness :
    getLocalRef "#/definitions/bad" (JS.jobj (.cons "bad" (.jnum 0) .nil)) = JS.jobj .nil
    ∧ getLocalRef "#/definitions/bad" (JS.jobj .nil) = JS.jobj .nil := by
  constructor
  · exact C10_falsy_definition_resolves_empty.2 "#/definitions/bad"
      (JS.jobj (.cons "bad" (.jnum 0) .nil)) "bad" [] (by decide) (by decide)
  · exact C10_falsy_definition_resolves_empty.2 "#/definitions/bad"
      (JS.jobj .nil) "bad" [] (by decide) (by decide)

/-!
## Claim C3 — the precondition `PickProperties` actually checks
-/

/-- An object schema with truthy `additionalProperties` (hence not a
simple object schema) and one declared property. -/
def c3schema : JS :=
  .jobj (.cons "type" (.jstr "object")
    (.cons "additionalProperties" (.jbool true)
      (.cons "properties" (.jobj (.cons "a" (.jobj .nil) .nil)) .nil)))

/-- C3 counterexample: `PickProperties` succeeds on an object schema that
does *not* satisfy `IsSimpleObjectSchema` — its `additionalProperties`
is `true` — because the implementation only checks `IsObjectSchema` and
the combinator keywords. -/
theorem C3_counterexample :
    SchemaBuilder.IsSimpleObjectSchema c3schema = false
    ∧ SchemaBuilder.HasAdditionalProperties c3schema = true
    ∧ SchemaBuilder.PickProperties c3schema ["a"]
      = .ok (.jobj (.cons "type" (.jstr "object")
          (.cons "additionalProperties" (.jbool false)
            (.cons "properties" (.jobj (.cons "a" (.jobj .nil) .nil)) .nil)))) := by
  refine ⟨by decide, by decide, by decide⟩

/-- C3 (amended): `PickProperties(names)` fails — with the precondition
error naming the operation — exactly when the document is not an object
schema or carries a combinator keyword; an object schema whose
`additionalProperties` is not explicitly `false` passes the check as
long as no combinator keyword is present. -/
theorem C3_pick_precondition (s : JS) (names : List String) :
    SchemaBuilder.PickProperties s names
      = .error "Schema Builder Error: pickProperties can only be used with a simple object schema (no oneOf, anyOf, allOf or not)"
    ↔ (SchemaBuilder.IsObjectSchema s = false
        ∨ SchemaBuilder.HasSchemasCombinationKeywords s = true) := by
  unfold SchemaBuilder.PickProperties
  by_cases h : (!(SchemaBuilder.IsObjectSchema s) || SchemaBuilder.HasSchemasCombinationKeywords s) = true
  · rw [if_pos h]
    simp only [Bool.or_eq_true, Bool.not_eq_true'] at h
    simp [h]
  · rw [if_neg h]
    simp only [Bool.or_eq_true, Bool.not_eq_true'] at h
    push_neg at h
    constructor
    · intro hh
      exact absurd hh (by simp)
    · intro hh
      rcases hh with hh | hh
      · exact absurd hh (by simp [h.1])
      · exact absurd hh (by simp [h.2])

/-!
## Claim C9 — `RenameProperty` with a missing old name
-/

/-- An object schema (`type: "object"`) that is not simple: its
`additionalProperties` is absent, hence not explicitly `false`. -/
def c9object : JS := .jobj (.cons "type" (.jstr "object") .nil)

/-- C9 counterexample: on an object schema that is not a *simple* object
schema, `RenameProperty` with a missing old name does fail (with the
precondition error), contradicting the claim's "for every object schema
… does not fail". -/
theorem C9_counterexample :
    SchemaBuilder.IsObjectSchema c9object = true
    ∧ hasProp (getProp c9object "properties") "a" = false
    ∧ SchemaBuilder.RenameProperty c9object "a" "b"
      = .error "Schema Builder Error: renameProperty can only be used with a simple object schema (no additionalProperties, oneOf, anyOf, allOf or not)" := by
  refine ⟨by decide, by decide, by decide⟩

/-- C9 (amended): for every *simple* object schema with a declared
`properties` object, renaming an old name that is not among the declared
properties does not fail and returns a document whose schema is
structurally equal to the original — the missing name is silently
ignored. -/
theorem C9_rename_missing_name_noop (s : JS) (ps : JSFields) (oldName newName : String)
    (hsimple : SchemaBuilder.IsSimpleObjectSchema s = true)
    (hprops : getProp s "properties" = JS.jobj ps)
    (hmiss : ps.hasKey oldName = false) :
    SchemaBuilder.RenameProperty s oldName newName = .ok s := by
  obtain ⟨sfs, rfl⟩ : ∃ sfs, s = JS.jobj sfs := by
    cases s
    case jobj sfs => exact ⟨sfs, rfl⟩
    all_goals simp [getProp] at hprops
  have hget : sfs.get "properties" = JS.jobj ps := by simpa [getProp] using hprops
  have hkey : sfs.hasKey "properties" = true := by
    cases hh : sfs.hasKey "properties"
    · rw [JSFields.get_eq_undef_of_not_hasKey sfs "properties" hh] at hget
      cases hget
    · rfl
  unfold SchemaBuilder.RenameProperty
  rw [if_neg (by simp [hsimple])]
  have hin : setProp (JS.jobj sfs) "properties"
      (SchemaBuilder.orEmptyObj (getProp (JS.jobj sfs) "properties")) = JS.jobj sfs := by
    simp only [getProp, hget, SchemaBuilder.orEmptyObj, truthy, if_pos]
    simp only [setProp, ← hget, JSFields.set_get_self_of_hasKey sfs "properties" hkey]
  rw [hin]
  rw [if_neg (by simp only [getProp, hget, hasProp, hmiss]; exact Bool.false_ne_true)]

/-- C9 witness: the amended no-op behaviour at a concrete simple object
schema with a missing old name. -/
theorem C9_rename_missing_name_noop_witness :
    SchemaBuilder.RenameProperty
      (JS.jobj (.cons "type" (.jstr "object")
        (.cons "additionalProperties" (.jbool false)
          (.cons "properties" (.jobj (.cons "x" (.jobj .nil) .nil))
            (.cons "required" (.jarr (.cons (.jstr "x") .nil)) .nil))))) "a" "b"
    = .ok (JS.jobj (.cons "type" (.jstr "object")
        (.cons "additionalProperties" (.jbool false)
          (.cons "properties" (.jobj (.cons "x" (.jobj .nil) .nil))
            (.cons "required" (.jarr (.cons (.jstr "x") .nil)) .nil))))) := by
  exact C9_rename_missing_name_noop
    (JS.jobj (.cons "type" (.jstr "object")
      (.cons "additionalProperties" (.jbool false)
        (.cons "properties" (.jobj (.cons "x" (.jobj .nil) .nil))
          (.cons "required" (.jarr (.cons (.jstr "x") .nil)) .nil)))))
    (.cons "x" (.jobj .nil) .nil) "a" "b" (by decide) (by decide) (by decide)

/-!
## Claim C2 — the accessors wrap a shared reference, not a clone
-/

/-- A heap laying out the document
`{type:"object", additionalProperties:false, properties:{p:{type:"string"}}}`:
address 0 is the document root, address 4 the node of property `p`. -/
def c2store : Heap.Store :=
  [(0, .hobj [("type", 1), ("additionalProperties", 2), ("properties", 3)]),
   (1, .hstr "object"),
   (2, .hbool false),
   (3, .hobj [("p", 4)]),
   (4, .hobj [("type", 5)]),
   (5, .hstr "string")]

/-- `c2store` after mutating the `type` field of the node that
`GetSubschema("p")` returned (address 4) to point at `"number"`. -/
def c2storeMut : Heap.Store :=
  Heap.writeStore (Heap.writeStore c2store 6 (.hstr "number")) 4 (.hobj [("type", 6)])

/-- A heap laying out the array document
`{type:"array", items:{type:"string"}}`: address 0 is the root, address
2 the items node. -/
def c2arrStore : Heap.Store :=
  [(0, .hobj [("type", 1), ("items", 2)]),
   (1, .hstr "array"),
   (2, .hobj [("type", 3)]),
   (3, .hstr "string")]

/-- `c2arrStore` after mutating the items node (address 2) through the
document returned by `GetItemsSubschema()`. -/
def c2arrStoreMut : Heap.Store :=
  Heap.writeStore (Heap.writeStore c2arrStore 4 (.hstr "number")) 2 (.hobj [("type", 4)])

/-- C2 counterexample: `GetSubschema("p")` returns a document rooted at
the very address stored in the original document's `properties` map, so
mutating the subschema through the returned document changes what the
original document reads back — and likewise for `GetItemsSubschema()`.
The claim's "no subsequent mutation reachable through the returned
Document can affect the original Document's schema" is false. -/
theorem C2_counterexample :
    Heap.GetSubschema c2store 0 "p" = .ok 4
    ∧ Heap.readback 10 c2storeMut 4 ≠ Heap.readback 10 c2store 4
    ∧ Heap.readback 10 c2storeMut 0 ≠ Heap.readback 10 c2store 0
    ∧ Heap.GetItemsSubschema c2arrStore 0 = .ok 2
    ∧ Heap.readback 10 c2arrStoreMut 2 ≠ Heap.readback 10 c2arrStore 2
    ∧ Heap.readback 10 c2arrStoreMut 0 ≠ Heap.readback 10 c2arrStore 0 := by
  refine ⟨by decide, by decide, by decide, by decide, by decide, by decide⟩

/-- C2 (amended): when they succeed, `GetSubschema(name)` and
`GetItemsSubschema()` return a new Document wrapping the *same* nested
schema node as the original — the returned root address is exactly the
address stored under `properties[name]` (resp. `items`) in the original
document, a shared reference rather than a clone. -/
theorem C2_accessors_share_reference (sigma : Heap.Store) (root : Nat) (name : String) (c : Nat) :
    (Heap.GetSubschema sigma root name = .ok c →
      ∃ pa pfs, Heap.fieldAddr sigma root "properties" = some pa
        ∧ Heap.readStore sigma pa = some (Heap.HVal.hobj pfs)
        ∧ List.lookup name pfs = some c)
    ∧ (Heap.GetItemsSubschema sigma root = .ok c →
        Heap.fieldAddr sigma root "items" = some c) := by
  constructor
  · intro h
    unfold Heap.GetSubschema at h
    split at h
    · cases h
    · split at h
      next pa hfa =>
        split at h
        next pfs hrs =>
          split at h
          next c' hl =>
            cases h
            exact ⟨pa, pfs, hfa, hrs, hl⟩
          next hl => cases h
        next hrs => cases h
      next hfa => cases h
  · intro h
    unfold Heap.GetItemsSubschema at h
    split at h
    · cases h
    · split at h
      next ia hfa =>
        cases h
        exact hfa
      next hfa => cases h

/-- C2 witness: the shared-reference fact instantiated on the concrete
heap: the subschema document returned for `p` is rooted at address 4,
the very address the original stores under `properties.p`. -/
theorem C2_accessors_share_reference_witness :
    ∃ pa pfs, Heap.fieldAddr c2store 0 "properties" = some pa
      ∧ Heap.readStore c2store pa = some (Heap.HVal.hobj pfs)
      ∧ List.lookup "p" pfs = some 4 :=
  (C2_accessors_share_reference c2store 0 "p" 4).1 (by decide)

/-!
## Claim C4 — eagerness and reach of the `$ref` construction check
-/

mutual
/-- Every node the traversal visits lies inside the document, so a
visited `$ref` key is a `$ref` key somewhere in the document. -/
theorem throughHasRef_imp_contains : ∀ (j : JS),
    throughHasRef j = true → containsRefAnywhere j = true
  | .jarr xs, h => by
      simp only [throughHasRef] at h
      simp only [containsRefAnywhere]
      exact throughHasRefList_imp_contains xs h
  | .jobj fs, h => by
      simp only [throughHasRef, Bool.or_eq_true] at h
      simp only [containsRefAnywhere, Bool.or_eq_true]
      rcases h with h | h
      · exact Or.inl h
      · exact Or.inr (throughHasRefFields_imp_contains fs h)
theorem throughHasRefFields_imp_contains : ∀ (fs : JSFields),
    throughHasRefFields fs = true → containsRefFields fs = true
  | .cons k v rest, h => by
      simp only [throughHasRefFields, Bool.or_eq_true] at h
      simp only [containsRefFields, Bool.or_eq_true]
      rcases h with h | h
      · left
        split at h
        · exact throughPropsVal_imp_contains v h
        · split at h
          · exact throughBranchesVal_imp_contains v h
          · split at h
            · exact throughHasRef_imp_contains v h
            · split at h
              · exact throughHasRef_imp_contains v h
              · cases h
      · exact Or.inr (throughHasRefFields_imp_contains rest h)
theorem throughPropsVal_imp_contains : ∀ (v : JS),
    throughPropsVal v = true → containsRefAnywhere v = true
  | .jobj pfs, h => by
      simp only [throughPropsVal] at h
      simp only [containsRefAnywhere, Bool.or_eq_true]
      exact Or.inr (throughPropsFields_imp_contains pfs h)
  | .jarr xs, h => by
      simp only [throughPropsVal] at h
      simp only [containsRefAnywhere]
      exact throughHasRefList_imp_contains xs h
theorem throughPropsFields_imp_contains : ∀ (pfs : JSFields),
    throughPropsFields pfs = true → containsRefFields pfs = true
  | .cons k v rest, h => by
      simp only [throughPropsFields, Bool.or_eq_true] at h
      simp only [containsRefFields, Bool.or_eq_true]
      rcases h with h | h
      · exact Or.inl (throughHasRef_imp_contains v h)
      · exact Or.inr (throughPropsFields_imp_contains rest h)
theorem throughBranchesVal_imp_contains : ∀ (v : JS),
    throughBranchesVal v = true → containsRefAnywhere v = true
  | .jarr xs, h => by
      simp only [throughBranchesVal] at h
      simp only [containsRefAnywhere]
      exact throughHasRefList_imp_contains xs h
theorem throughHasRefList_imp_contains : ∀ (xs : JSList),
    throughHasRefList xs = true → containsRefList xs = true
  | .cons x rest, h => by
      simp only [throughHasRefList, Bool.or_eq_true] at h
      simp only [containsRefList, Bool.or_eq_true]
      rcases h with h | h
      · exact Or.inl (throughHasRef_imp_contains x h)
      · exact Or.inr (throughHasRefList_imp_contains rest h)
end

/-- A document whose `definitions` entry `a` holds a `$ref` — a position
`ThroughJsonSchema` never visits. -/
def c4schema : JS :=
  .jobj (.cons "definitions"
    (.jobj (.cons "a" (.jobj (.cons "$ref" (.jstr "#/definitions/b") .nil)) .nil)) .nil)

/-- C4 counterexample: this document contains a `$ref` keyword (inside
`definitions`), yet constructing a SchemaBuilder from it succeeds — the
construction-time traversal does not reach every position of the
document, so "fails for every schema value containing a `$ref` keyword
anywhere" is false. -/
theorem C4_counterexample :
    containsRefAnywhere c4schema = true
    ∧ SchemaBuilder.mkSchemaBuilder c4schema = .ok c4schema := by
  refine ⟨by decide, by decide⟩

/-- C4 (amended): construction fails (eagerly, with the fatal `$ref`
error) exactly when a node *visited by the deep traversal* — the root,
`properties` values, `oneOf`/`allOf`/`anyOf` branches, `items`, `not`,
schema-valued `additionalProperties`, recursively — carries a `$ref`
key; positions outside the traversal (such as `definitions` members or
keyword values) do not trigger it.  In particular a value containing no
`$ref` anywhere always constructs successfully. -/
theorem C4_ref_check (s : JS) :
    (SchemaBuilder.mkSchemaBuilder s
      = .error "Schema Builder Error: $ref cant be used to initialize a SchemaBuilder. Dereferenced the schema first."
      ↔ throughHasRef s = true)
    ∧ (containsRefAnywhere s = false → SchemaBuilder.mkSchemaBuilder s = .ok s) := by
  constructor
  · unfold SchemaBuilder.mkSchemaBuilder
    cases h : throughHasRef s
    · simp [h]
    · simp [h]
  · intro hno
    unfold SchemaBuilder.mkSchemaBuilder
    cases h : throughHasRef s
    · simp
    · rw [throughHasRef_imp_contains s h] at hno
      cases hno

/-- C4 witness: a concrete `$ref`-free document constructs successfully
via the amended theorem. -/
theorem C4_ref_check_witness :
    SchemaBuilder.mkSchemaBuilder (JS.jobj (.cons "type" (.jstr "object") .nil))
      = .ok (JS.jobj (.cons "type" (.jstr "object") .nil)) :=
  (C4_ref_check (JS.jobj (.cons "type" (.jstr "object") .nil))).2 (by decide)

/-!
## Claim C6 — tuple-array defaults and `minItems` trimming
-/

/-- The trimming loop rephrased as a recursion on the reversed value
list (the loop index always equals the length of the unexamined rest). -/
def trimRev (ct : Int) : List JS → List JS
  | [] => []
  | v :: rest =>
      if v != JS.undef then v :: rest
      else if (rest.length : Int) + 1 > ct then trimRev ct rest
      else v :: rest

theorem tupleTrimAux_eq_trimRev (ct : Int) : ∀ (rvals : List JS),
    tupleTrimAux ct rvals ((rvals.length : Int) - 1) = trimRev ct rvals
  | [] => rfl
  | v :: rest => by
      simp only [tupleTrimAux, trimRev, List.length_cons]
      have hi : ((rest.length + 1 : Nat) : Int) - 1 = (rest.length : Int) := by push_cast; ring
      rw [hi]
      by_cases hv : (v != JS.undef) = true
      · rw [if_pos hv, if_pos hv]
      · rw [if_neg hv, if_neg hv]
        by_cases hc : (rest.length : Int) + 1 > ct
        · rw [if_pos hc, if_pos hc, tupleTrimAux_eq_trimRev ct rest]
        · rw [if_neg hc, if_neg hc]

theorem trimRev_drop (ct : Int) : ∀ (rvals : List JS),
    ∃ n, n ≤ rvals.length ∧ trimRev ct rvals = rvals.drop n
      ∧ ∀ x ∈ rvals.take n, x = JS.undef
  | [] => ⟨0, by simp [trimRev]⟩
  | v :: rest => by
      by_cases hv : (v != JS.undef) = true
      · exact ⟨0, by simp [trimRev, hv]⟩
      · by_cases hc : (rest.length : Int) + 1 > ct
        · obtain ⟨n, hn, heq, hundef⟩ := trimRev_drop ct rest
          refine ⟨n + 1, by simpa using hn, ?_, ?_⟩
          · simpa [trimRev, hv, hc] using heq
          · intro x hx
            simp only [List.take_succ_cons, List.mem_cons] at hx
            rcases hx with rfl | hx
            · simpa using hv
            · exact hundef x hx
        · exact ⟨0, by simp [trimRev, hv, hc]⟩

theorem trimRev_length_ge (ct : Int) : ∀ (rvals : List JS),
    min rvals.length ct.toNat ≤ (trimRev ct rvals).length
  | [] => by simp [trimRev]
  | v :: rest => by
      by_cases hv : (v != JS.undef) = true
      · simp [trimRev, hv]
      · by_cases hc : (rest.length : Int) + 1 > ct
        · have ih := trimRev_length_ge ct rest
          have hct : ct.toNat ≤ rest.length := by omega
          simp only [trimRev, hv, Bool.false_eq_true, if_false, if_pos hc, List.length_cons]
          omega
        · simp only [trimRev, hv, Bool.false_eq_true, if_false, if_neg hc, List.length_cons]
          omega

theorem trimRev_head_defined (ct : Int) : ∀ (rvals : List JS),
    ct.toNat < (trimRev ct rvals).length → (trimRev ct rvals).head? ≠ some JS.undef
  | [] => by simp [trimRev]
  | v :: rest => by
      intro hlen
      by_cases hv : (v != JS.undef) = true
      · simp only [trimRev, hv, if_pos] at hlen ⊢
        intro hh
        rw [List.head?_cons, Option.some.injEq] at hh
        rw [hh] at hv
        simp at hv
      · by_cases hc : (rest.length : Int) + 1 > ct
        · simp only [trimRev, hv, Bool.false_eq_true, if_false, if_pos hc] at hlen ⊢
          exact trimRev_head_defined ct rest hlen
        · simp only [trimRev, hv, Bool.false_eq_true, if_false, if_neg hc,
            List.length_cons] at hlen
          omega

/-- Full characterisation of the tuple trimming: the result is a prefix
of the computed per-position defaults, its length never drops below
`min(values.length, minItems)`, only "no default" (`undefined`) entries
are removed, and whenever the kept length exceeds `minItems` the last
kept entry is a real default (nothing unprotected was left untrimmed). -/
theorem tupleTrim_spec (ct : Int) (values : List JS) :
    tupleTrim ct values = values.take (tupleTrim ct values).length
    ∧ min values.length ct.toNat ≤ (tupleTrim ct values).length
    ∧ (∀ x ∈ values.drop (tupleTrim ct values).length, x = JS.undef)
    ∧ (ct.toNat < (tupleTrim ct values).length →
        (tupleTrim ct values).getLast? ≠ some JS.undef) := by
  have hrw : tupleTrim ct values = (trimRev ct values.reverse).reverse := by
    unfold tupleTrim
    rw [← List.length_reverse values, tupleTrimAux_eq_trimRev ct values.reverse]
  obtain ⟨n, hn, hdrop, hundef⟩ := trimRev_drop ct values.reverse
  have hlenrev : (trimRev ct values.reverse).length = values.length - n := by
    rw [hdrop, List.length_drop, List.length_reverse]
  have hlen : (tupleTrim ct values).length = values.length - n := by
    rw [hrw, List.length_reverse, hlenrev]
  have htake : tupleTrim ct values = values.take (values.length - n) := by
    rw [hrw, hdrop, ← List.rdrop_eq_reverse_drop_reverse, List.rdrop]
  refine ⟨?_, ?_, ?_, ?_⟩
  · rw [hlen, htake]
  · rw [hlen]
    have := trimRev_length_ge ct values.reverse
    rw [hlenrev, List.length_reverse] at this
    omega
  · intro x hx
    rw [hlen] at hx
    have : values.drop (values.length - n) = values.rtake n := by rw [List.rtake]
    rw [this, List.rtake_eq_reverse_take_reverse] at hx
    exact hundef x (List.mem_reverse.mp hx)
  · intro hct
    rw [hrw, List.getLast?_reverse]
    apply trimRev_head_defined ct values.reverse
    rw [hlenrev]
    rw [hlen] at hct
    omega

/-- C6 (amended): for an array schema with tuple-form `items` and
`minItems` count `m` (0 when absent), the computed default is the
sequence of each position's recursively computed default with trailing
"no default" entries removed from the tail, except that entries at
positions `1..m` are never removed — so the result's length is never
below `min(m, number of positions)` (it cannot exceed the number of
positions, which may itself be smaller than `m`). -/
theorem C6_tuple_defaults (fuel : Nat) (schema defs : JS) (items : JSList) (m : Int)
    (hdef : getProp schema "default" = JS.undef)
    (hallof : getProp schema "allOf" = JS.undef)
    (href : getProp schema "$ref" = JS.undef)
    (htypeArr : getProp schema "type" = JS.jstr "array")
    (hitems : getProp schema "items" = JS.jarr items)
    (hmin : getProp schema "minItems" = JS.jnum m
            ∨ (getProp schema "minItems" = JS.undef ∧ m = 0)) :
    defaults (fuel + 1) schema defs
      = JS.jarr (JSList.ofList
          (tupleTrim m (items.toList.map (fun x => defaults fuel x defs))))
    ∧ (tupleTrim m (items.toList.map (fun x => defaults fuel x defs))
        = (items.toList.map (fun x => defaults fuel x defs)).take
            (tupleTrim m (items.toList.map (fun x => defaults fuel x defs))).length)
    ∧ min items.length m.toNat
        ≤ (tupleTrim m (items.toList.map (fun x => defaults fuel x defs))).length
    ∧ (∀ x ∈ (items.toList.map (fun x => defaults fuel x defs)).drop
          (tupleTrim m (items.toList.map (fun x => defaults fuel x defs))).length,
        x = JS.undef)
    ∧ (m.toNat < (tupleTrim m (items.toList.map (fun x => defaults fuel x defs))).length →
        (tupleTrim m (items.toList.map (fun x => defaults fuel x defs))).getLast?
          ≠ some JS.undef) := by
  have hne : (JS.jstr "array" == JS.jstr "object") = false := by decide
  have hstep : defaults (fuel + 1) schema defs
      = JS.jarr (JSList.ofList
          (tupleTrim m (items.toList.map (fun x => defaults fuel x defs)))) := by
    rw [defaults]
    rw [hdef, hallof, href, htypeArr, hitems]
    simp only [bne_self_eq_false, Bool.false_eq_true, if_false, hne, truthy]
    rcases hmin with hmin | ⟨hmin, rfl⟩ <;>
      simp [hmin]
  obtain ⟨h1, h2, h3, h4⟩ := tupleTrim_spec m (items.toList.map (fun x => defaults fuel x defs))
  have hlen2 : (items.toList.map (fun x => defaults fuel x defs)).length = items.length := by
    rw [List.length_map, JSList.length_toList]
  refine ⟨hstep, h1, ?_, h3, h4⟩
  rw [← hlen2]
  exact h2

/-- A tuple-array schema with fewer positions (one, with no default)
than its `minItems` (2). -/
def c6under : JS :=
  .jobj (.cons "type" (.jstr "array")
    (.cons "items" (.jarr (.cons (.jobj .nil) .nil))
      (.cons "minItems" (.jnum 2) .nil)))

/-- C6 counterexample: with one tuple position and `minItems: 2`, the
computed default is the one-element sequence `[undefined]` — its length
1 is below `m = 2`, refuting "the result's length is never below m".
(The protected positions rule only prevents *trimming* below `m`; it
cannot create positions the tuple does not have.) -/
theorem C6_counterexample :
    defaults 10 c6under (JS.jobj .nil) = JS.jarr (.cons .undef .nil)
    ∧ getProp c6under "minItems" = JS.jnum 2
    ∧ (JSList.cons JS.undef JSList.nil).length < (2 : Int).toNat := by
  refine ⟨by decide, by decide, by decide⟩

/-- The claim's own example: `{type:"array", items:[{default:1},{}],
minItems:1}`. -/
def c6ex : JS :=
  .jobj (.cons "type" (.jstr "array")
    (.cons "items" (.jarr (.cons (.jobj (.cons "default" (.jnum 1) .nil))
      (.cons (.jobj .nil) .nil)))
      (.cons "minItems" (.jnum 1) .nil)))

/-- C6 witness: the amended theorem applied to the claim's example
yields `[1]` (the trailing no-default entry exceeds `minItems` and is
trimmed). -/
theorem C6_tuple_defaults_witness :
    defaults 10 c6ex (JS.jobj .nil) = JS.jarr (.cons (.jnum 1) .nil) := by
  have h := (C6_tuple_defaults 9 c6ex (JS.jobj .nil)
    (.cons (.jobj (.cons "default" (.jnum 1) .nil)) (.cons (.jobj .nil) .nil)) 1
    (by decide) (by decide) (by decide) (by decide) (by decide) (Or.inl (by decide))).1
  rw [h]
  decide

/-!
## Claim C7 — `ToNullable` on optional properties
-/

theorem jsArrContains_orEmptyArr (x v : JS) :
    SchemaBuilder.jsArrContains (SchemaBuilder.orEmptyArr x) v
      = SchemaBuilder.jsArrContains x v := by
  unfold SchemaBuilder.orEmptyArr
  by_cases h : truthy x = true
  · rw [if_pos h]
  · rw [if_neg h]
    cases x with
    | jarr xs => simp [truthy] at h
    | jobj fs => simp [truthy] at h
    | undef => rfl
    | jnull => rfl
    | jbool b =>
        cases b with
        | true => simp [truthy] at h
        | false => rfl
    | jnum m => rfl
    | jstr t => rfl

/-- Loop steps for other property names do not change what is stored
under `name`. -/
theorem toNullableLoop_preserves : ∀ (names : List String) (s : JS) (required : JS)
    (name : String), name ∉ names →
    getProp (getProp (SchemaBuilder.toNullableLoop required s names) "properties") name
      = getProp (getProp s "properties") name
  | [], s, required, name, _ => rfl
  | n :: rest, s, required, name, hnm => by
      have hne : n ≠ name := fun hh => hnm (hh ▸ List.mem_cons_self n rest)
      have hrest : name ∉ rest := fun hh => hnm (List.mem_cons_of_mem n hh)
      rw [SchemaBuilder.toNullableLoop]
      by_cases hreq : SchemaBuilder.jsArrContains required (.jstr n) = true
      · rw [if_pos hreq]
        exact toNullableLoop_preserves rest s required name hrest
      · rw [if_neg hreq]
        rw [toNullableLoop_preserves rest _ required name hrest]
        cases s with
        | jobj sfs =>
            rw [getProp_setProp_self]
            exact getProp_setProp_ne _ n _ name hne
        | undef => rfl
        | jnull => rfl
        | jbool b => rfl
        | jnum m => rfl
        | jstr t => rfl
        | jarr xs => rfl

theorem getProp_jobj_set_self (fs : JSFields) (k : String) (v : JS) :
    getProp (JS.jobj (fs.set k v)) k = v := by
  simp [getProp, JSFields.get_set_self]

theorem getProp_jobj_set_ne (fs : JSFields) (k : String) (v : JS) (k' : String) (h : k ≠ k') :
    getProp (JS.jobj (fs.set k v)) k' = getProp (JS.jobj fs) k' := by
  simp only [getProp, JSFields.get_set_ne fs k v k' h]

/-- What the loop leaves under a name it visits exactly once: untouched
when required, `toNullableValue` of the stored value when optional
(`pfs` is the — necessarily object-valued — properties map). -/
theorem toNullableLoop_at_name : ∀ (names : List String) (sfs pfs : JSFields) (required : JS)
    (name : String), name ∈ names → names.Nodup →
    getProp (JS.jobj sfs) "properties" = JS.jobj pfs →
    getProp (getProp (SchemaBuilder.toNullableLoop required (JS.jobj sfs) names) "properties") name
      = if SchemaBuilder.jsArrContains required (.jstr name) then
          getProp (JS.jobj pfs) name
        else
          SchemaBuilder.toNullableValue (getProp (JS.jobj pfs) name)
  | [], _, _, _, name, hmem, _, _ => absurd hmem (List.not_mem_nil name)
  | n :: rest, sfs, pfs, required, name, hmem, hnodup, hp => by
      rw [SchemaBuilder.toNullableLoop]
      by_cases heq : n = name
      · subst heq
        have hrest : n ∉ rest := (List.nodup_cons.mp hnodup).1
        by_cases hreq : SchemaBuilder.jsArrContains required (.jstr n) = true
        · rw [if_pos hreq, if_pos hreq, toNullableLoop_preserves rest _ required n hrest, hp]
        · rw [if_neg hreq, if_neg hreq]
          rw [toNullableLoop_preserves rest _ required n hrest, hp]
          rw [getProp_setProp_self]
          exact getProp_jobj_set_self pfs n _
      · have hmem' : name ∈ rest := by
          rcases List.mem_cons.mp hmem with hh | hh
          · exact absurd hh.symm heq
          · exact hh
        have hnodup' : rest.Nodup := (List.nodup_cons.mp hnodup).2
        by_cases hreq : SchemaBuilder.jsArrContains required (.jstr n) = true
        · rw [if_pos hreq]
          exact toNullableLoop_at_name rest sfs pfs required name hmem' hnodup' hp
        · rw [if_neg hreq, hp]
          have hp' : getProp (JS.jobj (sfs.set "properties"
                (JS.jobj (pfs.set n (SchemaBuilder.toNullableValue (getProp (JS.jobj pfs) n))))))
                "properties"
              = JS.jobj (pfs.set n (SchemaBuilder.toNullableValue (getProp (JS.jobj pfs) n))) :=
            getProp_jobj_set_self sfs "properties" _
          rw [show setProp (JS.jobj sfs) "properties"
                (setProp (JS.jobj pfs) n
                  (SchemaBuilder.toNullableValue (getProp (JS.jobj pfs) n)))
              = JS.jobj (sfs.set "properties"
                (JS.jobj (pfs.set n (SchemaBuilder.toNullableValue (getProp (JS.jobj pfs) n)))))
            from rfl]
          rw [toNullableLoop_at_name rest _ _ required name hmem' hnodup' hp']
          rw [getProp_jobj_set_ne pfs n _ name heq]

theorem enumNullAdjust_get_type (pf1 : JSFields) :
    (SchemaBuilder.enumNullAdjust pf1).get "type" = pf1.get "type" := by
  unfold SchemaBuilder.enumNullAdjust
  by_cases h : pf1.hasKey "enum" = true
  · rw [if_pos h]
    cases hg : pf1.get "enum" with
    | jarr es =>
        by_cases hc : (es.containsVal .jnull) = true
        · simp [hc]
        · simp only [hc]
          simp only [Bool.not_false, if_pos]
          exact JSFields.get_set_ne pf1 "enum" _ "type" (by decide)
    | undef => rfl
    | jnull => rfl
    | jbool b => rfl
    | jnum m => rfl
    | jstr t => rfl
    | jobj fs => rfl
  · rw [if_neg h]

theorem typeNullWiden_get_enum (pf : JSFields) :
    (SchemaBuilder.typeNullWiden pf).get "enum" = pf.get "enum" := by
  unfold SchemaBuilder.typeNullWiden
  cases hg : pf.get "type" with
  | jarr ts =>
      dsimp only
      by_cases hc : (ts.containsVal (.jstr "null")) = true
      · simp [hc]
      · simp only [hc, Bool.not_false, if_pos]
        exact JSFields.get_set_ne pf "type" _ "enum" (by decide)
  | jstr ty =>
      dsimp only
      by_cases hc : (ty != "null") = true
      · rw [if_pos hc]
        exact JSFields.get_set_ne pf "type" _ "enum" (by decide)
      · rw [if_neg hc]
  | undef => rfl
  | jnull => rfl
  | jbool b => rfl
  | jnum m => rfl
  | jobj fs => rfl

theorem typeNullWiden_hasKey_enum (pf : JSFields) :
    (SchemaBuilder.typeNullWiden pf).hasKey "enum" = pf.hasKey "enum" := by
  have hne : ("type" == "enum") = false := by decide
  unfold SchemaBuilder.typeNullWiden
  cases hg : pf.get "type" with
  | jarr ts =>
      dsimp only
      by_cases hc : (ts.containsVal (.jstr "null")) = true
      · simp [hc]
      · simp only [hc, Bool.not_false, if_pos]
        rw [JSFields.hasKey_set, hne, Bool.false_or]
  | jstr ty =>
      dsimp only
      by_cases hc : (ty != "null") = true
      · rw [if_pos hc, JSFields.hasKey_set, hne, Bool.false_or]
      · rw [if_neg hc]
  | undef => rfl
  | jnull => rfl
  | jbool b => rfl
  | jnum m => rfl
  | jobj fs => rfl

theorem JSFields.hasKey_of_get_ne_undef (fs : JSFields) (k : String)
    (h : fs.get k ≠ JS.undef) : fs.hasKey k = true := by
  cases hh : fs.hasKey k
  · exact absurd (JSFields.get_eq_undef_of_not_hasKey fs k hh) h
  · rfl

/-- C7 (amended): for every simple object schema, `ToNullable()` leaves
every required property unchanged; for every currently optional property
(stored as an object `pf`): a scalar `type` *other than `"null"`*
becomes the two-element array `[type, "null"]`, an existing type array
without `"null"` gets `"null"` appended, an existing `enum` array
without `null` gets `null` appended (when a `type` key is present), and
a property schema with no `type` key at all is replaced by
`anyOf: [original, {type: "null"}]`.  A scalar `type: "null"` is left
untouched (the one deviation from the claim). -/
theorem C7_to_nullable (s : JS) (pfs : JSFields) (name : String) (r : JS)
    (hsimple : SchemaBuilder.IsSimpleObjectSchema s = true)
    (hprops : getProp s "properties" = JS.jobj pfs)
    (hnodup : pfs.keysUnique)
    (hname : pfs.hasKey name = true)
    (hok : SchemaBuilder.ToNullable s = .ok r) :
    (SchemaBuilder.jsArrContains (getProp s "required") (.jstr name) = true →
        getProp (getProp r "properties") name = pfs.get name)
    ∧ (SchemaBuilder.jsArrContains (getProp s "required") (.jstr name) = false →
        ∀ pf : JSFields, pfs.get name = JS.jobj pf →
          (∀ ty : String, pf.get "type" = JS.jstr ty → ty ≠ "null" →
              getProp (getProp (getProp r "properties") name) "type"
                = JS.jarr (.cons (.jstr ty) (.cons (.jstr "null") .nil)))
          ∧ (∀ ts : JSList, pf.get "type" = JS.jarr ts → ts.containsVal (.jstr "null") = false →
              getProp (getProp (getProp r "properties") name) "type"
                = JS.jarr (ts.pushVal (.jstr "null")))
          ∧ (pf.hasKey "type" = true → ∀ es : JSList, pf.get "enum" = JS.jarr es →
              es.containsVal .jnull = false →
              getProp (getProp (getProp r "properties") name) "enum"
                = JS.jarr (es.pushVal .jnull))
          ∧ (pf.hasKey "type" = false →
              getProp (getProp r "properties") name
                = SchemaBuilder.anyOfNullWrap (JS.jobj pf))) := by
  obtain ⟨sfs, rfl⟩ : ∃ sfs, s = JS.jobj sfs := by
    cases s
    case jobj sfs => exact ⟨sfs, rfl⟩
    all_goals simp [getProp] at hprops
  unfold SchemaBuilder.ToNullable at hok
  rw [if_neg (by simp [hsimple])] at hok
  rw [hprops] at hok
  cases hok
  have hmem : name ∈ pfs.keys := (JSFields.hasKey_iff_mem_keys pfs name).mp hname
  have hres := toNullableLoop_at_name pfs.keys sfs pfs
    (SchemaBuilder.orEmptyArr (getProp (JS.jobj sfs) "required")) name hmem hnodup hprops
  rw [jsArrContains_orEmptyArr] at hres
  constructor
  · intro hreq
    rw [show keysOf (JS.jobj pfs) = pfs.keys from rfl, hres, if_pos hreq]
    rfl
  · intro hreq pf hpf
    have hgp : getProp (JS.jobj pfs) name = JS.jobj pf := hpf
    rw [show keysOf (JS.jobj pfs) = pfs.keys from rfl, hres, if_neg (by rw [hreq]; exact Bool.false_ne_true), hgp]
    refine ⟨?_, ?_, ?_, ?_⟩
    · intro ty hty htynull
      have hkt : pf.hasKey "type" = true :=
        JSFields.hasKey_of_get_ne_undef pf "type" (by rw [hty]; exact fun hh => by cases hh)
      unfold SchemaBuilder.toNullableValue
      dsimp only
      rw [if_pos hkt]
      show (SchemaBuilder.enumNullAdjust (SchemaBuilder.typeNullWiden pf)).get "type" = _
      rw [enumNullAdjust_get_type]
      unfold SchemaBuilder.typeNullWiden
      rw [hty]
      dsimp only
      rw [if_pos (show (ty != "null") = true by simp [htynull])]
      exact JSFields.get_set_self pf "type" _
    · intro ts hty hnc
      have hkt : pf.hasKey "type" = true :=
        JSFields.hasKey_of_get_ne_undef pf "type" (by rw [hty]; exact fun hh => by cases hh)
      unfold SchemaBuilder.toNullableValue
      dsimp only
      rw [if_pos hkt]
      show (SchemaBuilder.enumNullAdjust (SchemaBuilder.typeNullWiden pf)).get "type" = _
      rw [enumNullAdjust_get_type]
      unfold SchemaBuilder.typeNullWiden
      rw [hty]
      dsimp only
      rw [if_pos (by rw [hnc]; rfl)]
      exact JSFields.get_set_self pf "type" _
    · intro hkt es hes hnc
      unfold SchemaBuilder.toNullableValue
      dsimp only
      rw [if_pos hkt]
      show (SchemaBuilder.enumNullAdjust (SchemaBuilder.typeNullWiden pf)).get "enum" = _
      have h1 : (SchemaBuilder.typeNullWiden pf).get "enum" = JS.jarr es := by
        rw [typeNullWiden_get_enum]
        exact hes
      have h2 : (SchemaBuilder.typeNullWiden pf).hasKey "enum" = true := by
        rw [typeNullWiden_hasKey_enum]
        exact JSFields.hasKey_of_get_ne_undef pf "enum" (by rw [hes]; exact fun hh => by cases hh)
      unfold SchemaBuilder.enumNullAdjust
      rw [if_pos h2, h1]
      dsimp only
      rw [if_pos (by rw [hnc]; rfl)]
      exact JSFields.get_set_self _ "enum" _
    · intro hkt
      unfold SchemaBuilder.toNullableValue
      dsimp only
      rw [if_neg (by rw [hkt]; exact Bool.false_ne_true)]

/-- A simple object schema whose single optional property has the scalar
type `"null"`. -/
def c7nullSchema : JS :=
  .jobj (.cons "type" (.jstr "object")
    (.cons "additionalProperties" (.jbool false)
      (.cons "properties" (.jobj (.cons "p" (.jobj (.cons "type" (.jstr "null") .nil)) .nil)) .nil)))

/-- C7 counterexample: for the currently optional property
`p: {type:"null"}` the claim demands the two-element array
`["null","null"]`, but `ToNullable` leaves the property — in fact the
whole schema — untouched: the implementation explicitly skips the
scalar type `"null"`. -/
theorem C7_counterexample :
    SchemaBuilder.ToNullable c7nullSchema = .ok c7nullSchema
    ∧ getProp (getProp (getProp c7nullSchema "properties") "p") "type" = JS.jstr "null"
    ∧ JS.jstr "null"
        ≠ JS.jarr (.cons (.jstr "null") (.cons (.jstr "null") .nil)) := by
  refine ⟨by decide, by decide, by decide⟩

/-- The claim's example schema: optional `p: {type: "integer"}`. -/
def c7intSchema : JS :=
  .jobj (.cons "type" (.jstr "object")
    (.cons "additionalProperties" (.jbool false)
      (.cons "properties" (.jobj (.cons "p" (.jobj (.cons "type" (.jstr "integer") .nil)) .nil)) .nil)))

/-- C7 witness: on the claim's example the amended theorem yields
`p: {type: ["integer","null"]}`. -/
theorem C7_to_nullable_witness :
    getProp (getProp (getProp
        (SchemaBuilder.toNullableLoop
          (SchemaBuilder.orEmptyArr (getProp c7intSchema "required")) c7intSchema
          (keysOf (getProp c7intSchema "properties")))
        "properties") "p") "type"
      = JS.jarr (.cons (.jstr "integer") (.cons (.jstr "null") .nil)) := by
  have h := C7_to_nullable c7intSchema
    (.cons "p" (.jobj (.cons "type" (.jstr "integer") .nil)) .nil) "p"
    (SchemaBuilder.toNullableLoop
      (SchemaBuilder.orEmptyArr (getProp c7intSchema "required")) c7intSchema
      (keysOf (getProp c7intSchema "properties")))
    (by decide) (by decide) (by decide) (by decide) (by decide)
  have h2 := (h.2 (by decide) (.cons "type" (.jstr "integer") .nil) (by decide)).1
    "integer" (by decide) (by decide)
  exact h2

/-!
## Claim C5 — `MergeProperties` on a common property name
-/

theorem setProp_jobj_eq (fs : JSFields) (k : String) (v : JS) :
    setProp (JS.jobj fs) k v = JS.jobj (fs.set k v) := rfl

theorem getProp_jobj_eq (fs : JSFields) (k : String) :
    getProp (JS.jobj fs) k = fs.get k := rfl

theorem hasProp_jobj_eq (fs : JSFields) (k : String) :
    hasProp (JS.jobj fs) k = fs.hasKey k := rfl

theorem JSList.containsVal_pushVal : ∀ (xs : JSList) (v w : JS),
    (xs.pushVal v).containsVal w = (xs.containsVal w || (v == w))
  | .nil, v, w => by simp [JSList.pushVal, JSList.containsVal]
  | .cons x xs, v, w => by
      simp [JSList.pushVal, JSList.containsVal, JSList.containsVal_pushVal xs v w]
      cases hx : (x == w) <;> simp [Bool.or_assoc]

theorem JSList.containsVal_filterVals : ∀ (xs : JSList) (p : JS → Bool) (w : JS),
    (xs.filterVals p).containsVal w = (xs.containsVal w && p w)
  | .nil, p, w => by simp [JSList.filterVals, JSList.containsVal]
  | .cons x xs, p, w => by
      simp only [JSList.containsVal, JSList.filterVals]
      by_cases hp : p x = true
      · rw [if_pos hp]
        simp only [JSList.containsVal, JSList.containsVal_filterVals xs p w]
        cases hx : (x == w)
        · simp
        · have hxw : x = w := by simpa using hx
          subst hxw
          simp [hp]
      · rw [if_neg hp]
        rw [JSList.containsVal_filterVals xs p w]
        cases hx : (x == w)
        · simp
        · have hxw : x = w := by simpa using hx
          subst hxw
          have hp' : p x = false := by simpa using hp
          simp [hp']

theorem hasProp_setProp_ne (x : JS) (k : String) (v : JS) (name : String) (h : k ≠ name) :
    hasProp (setProp x k v) name = hasProp x name := by
  cases x <;> simp [setProp, hasProp]
  rw [JSFields.hasKey_set]
  simp [h]

theorem jsArrContains_jsPush_ne (x : JS) (k name : String) (h : k ≠ name) :
    SchemaBuilder.jsArrContains (SchemaBuilder.jsPush x (.jstr k)) (.jstr name)
      = SchemaBuilder.jsArrContains x (.jstr name) := by
  cases x <;> simp [SchemaBuilder.jsPush, SchemaBuilder.jsArrContains]
  rw [JSList.containsVal_pushVal]
  simp [h]

theorem jsArrContains_jsFilter_ne (x : JS) (k name : String) (h : k ≠ name) :
    SchemaBuilder.jsArrContains (SchemaBuilder.jsFilter x (fun p => !(p == .jstr k))) (.jstr name)
      = SchemaBuilder.jsArrContains x (.jstr name) := by
  have hne : (JS.jstr name == JS.jstr k) = false := by
    rw [beq_eq_false_iff_ne]
    intro hh
    cases hh
    exact h rfl
  cases x <;> simp [SchemaBuilder.jsFilter, SchemaBuilder.jsArrContains]
  rw [JSList.containsVal_filterVals, hne]
  simp

theorem jsArrContains_jsFilter_self (x : JS) (k : String) :
    SchemaBuilder.jsArrContains (SchemaBuilder.jsFilter x (fun p => !(p == .jstr k))) (.jstr k)
      = false := by
  cases x <;> simp [SchemaBuilder.jsFilter, SchemaBuilder.jsArrContains]
  rw [JSList.containsVal_filterVals]
  simp

theorem mergePropsStep_not_jobj (req2 : JS) (k : String) (v : JS) : ∀ (s1 : JS),
    (∀ fs, s1 ≠ JS.jobj fs) → SchemaBuilder.mergePropsStep req2 s1 k v = s1 := by
  intro s1 h
  cases s1 with
  | jobj fs => exact absurd rfl (h fs)
  | undef =>
      by_cases hb : SchemaBuilder.jsArrContains req2 (.jstr k) = true <;>
        simp [SchemaBuilder.mergePropsStep, getProp, hasProp, setProp, hb]
  | jnull =>
      by_cases hb : SchemaBuilder.jsArrContains req2 (.jstr k) = true <;>
        simp [SchemaBuilder.mergePropsStep, getProp, hasProp, setProp, hb]
  | jbool b =>
      by_cases hb : SchemaBuilder.jsArrContains req2 (.jstr k) = true <;>
        simp [SchemaBuilder.mergePropsStep, getProp, hasProp, setProp, hb]
  | jnum n =>
      by_cases hb : SchemaBuilder.jsArrContains req2 (.jstr k) = true <;>
        simp [SchemaBuilder.mergePropsStep, getProp, hasProp, setProp, hb]
  | jstr t =>
      by_cases hb : SchemaBuilder.jsArrContains req2 (.jstr k) = true <;>
        simp [SchemaBuilder.mergePropsStep, getProp, hasProp, setProp, hb]
  | jarr xs =>
      by_cases hb : SchemaBuilder.jsArrContains req2 (.jstr k) = true <;>
        simp [SchemaBuilder.mergePropsStep, getProp, hasProp, setProp, hb]

theorem mergePropsStep_observables_ne (req2 : JS) (s1 : JS) (k : String) (v : JS)
    (name : String) (hne : k ≠ name) :
    getProp (getProp (SchemaBuilder.mergePropsStep req2 s1 k v) "properties") name
      = getProp (getProp s1 "properties") name
    ∧ hasProp (getProp (SchemaBuilder.mergePropsStep req2 s1 k v) "properties") name
      = hasProp (getProp s1 "properties") name
    ∧ SchemaBuilder.jsArrContains
        (getProp (SchemaBuilder.mergePropsStep req2 s1 k v) "required") (.jstr name)
      = SchemaBuilder.jsArrContains (getProp s1 "required") (.jstr name) := by
  have gpr : ∀ (fs : JSFields) (X : JS),
      (fs.set "properties" X).get "required" = fs.get "required" :=
    fun fs X => JSFields.get_set_ne fs "properties" X "required" (by decide)
  have grp : ∀ (fs : JSFields) (X : JS),
      (fs.set "required" X).get "properties" = fs.get "properties" :=
    fun fs X => JSFields.get_set_ne fs "required" X "properties" (by decide)
  cases s1 with
  | jobj fs1 =>
      unfold SchemaBuilder.mergePropsStep
      by_cases habs : hasProp (getProp (JS.jobj fs1) "properties") k = true
      · rw [if_neg (by simp [habs])]
        by_cases hdem : (SchemaBuilder.jsArrContains
            (getProp (setProp (JS.jobj fs1) "properties"
              (setProp (getProp (JS.jobj fs1) "properties") k
                (.jobj (.cons "anyOf" (.jarr (.cons (getProp (getProp (JS.jobj fs1) "properties") k) (.cons v .nil))) .nil)))) "required")
            (.jstr k)
          && !(SchemaBuilder.jsArrContains req2 (.jstr k))) = true
        · rw [if_pos hdem]
          simp only [setProp_jobj_eq, getProp_jobj_eq, gpr, grp, JSFields.get_set_self]
          refine ⟨?_, ?_, ?_⟩
          · exact getProp_setProp_ne _ k _ name hne
          · exact hasProp_setProp_ne _ k _ name hne
          · exact jsArrContains_jsFilter_ne _ k name hne
        · rw [if_neg hdem]
          simp only [setProp_jobj_eq, getProp_jobj_eq, gpr, grp, JSFields.get_set_self]
          refine ⟨?_, ?_, by trivial⟩
          · exact getProp_setProp_ne _ k _ name hne
          · exact hasProp_setProp_ne _ k _ name hne
      · rw [if_pos (by simp [habs])]
        by_cases hb : SchemaBuilder.jsArrContains req2 (.jstr k) = true
        · rw [if_pos hb]
          simp only [setProp_jobj_eq, getProp_jobj_eq, gpr, grp, JSFields.get_set_self]
          refine ⟨?_, ?_, ?_⟩
          · exact getProp_setProp_ne _ k _ name hne
          · exact hasProp_setProp_ne _ k _ name hne
          · rw [jsArrContains_jsPush_ne _ k name hne, jsArrContains_orEmptyArr]
        · rw [if_neg hb]
          simp only [setProp_jobj_eq, getProp_jobj_eq, gpr, grp, JSFields.get_set_self]
          refine ⟨?_, ?_, by trivial⟩
          · exact getProp_setProp_ne _ k _ name hne
          · exact hasProp_setProp_ne _ k _ name hne
  | undef => rw [mergePropsStep_not_jobj req2 k v JS.undef (by intro fs hh; cases hh)]; exact ⟨rfl, rfl, rfl⟩
  | jnull => rw [mergePropsStep_not_jobj req2 k v JS.jnull (by intro fs hh; cases hh)]; exact ⟨rfl, rfl, rfl⟩
  | jbool b => rw [mergePropsStep_not_jobj req2 k v (JS.jbool b) (by intro fs hh; cases hh)]; exact ⟨rfl, rfl, rfl⟩
  | jnum n => rw [mergePropsStep_not_jobj req2 k v (JS.jnum n) (by intro fs hh; cases hh)]; exact ⟨rfl, rfl, rfl⟩
  | jstr t => rw [mergePropsStep_not_jobj req2 k v (JS.jstr t) (by intro fs hh; cases hh)]; exact ⟨rfl, rfl, rfl⟩
  | jarr xs => rw [mergePropsStep_not_jobj req2 k v (JS.jarr xs) (by intro fs hh; cases hh)]; exact ⟨rfl, rfl, rfl⟩

theorem mergePropsStep_at_name (req2 : JS) (fs1 : JSFields) (k : String) (v : JS)
    (hpresent : hasProp (getProp (JS.jobj fs1) "properties") k = true) :
    getProp (getProp (SchemaBuilder.mergePropsStep req2 (JS.jobj fs1) k v) "properties") k
      = JS.jobj (.cons "anyOf"
          (.jarr (.cons (getProp (getProp (JS.jobj fs1) "properties") k) (.cons v .nil))) .nil)
    ∧ SchemaBuilder.jsArrContains
        (getProp (SchemaBuilder.mergePropsStep req2 (JS.jobj fs1) k v) "required") (.jstr k)
      = (SchemaBuilder.jsArrContains (getProp (JS.jobj fs1) "required") (.jstr k)
          && SchemaBuilder.jsArrContains req2 (.jstr k)) := by
  have gpr : ∀ (fs : JSFields) (X : JS),
      (fs.set "properties" X).get "required" = fs.get "required" :=
    fun fs X => JSFields.get_set_ne fs "properties" X "required" (by decide)
  have grp : ∀ (fs : JSFields) (X : JS),
      (fs.set "required" X).get "properties" = fs.get "properties" :=
    fun fs X => JSFields.get_set_ne fs "required" X "properties" (by decide)
  obtain ⟨pfs, hp⟩ : ∃ pfs, getProp (JS.jobj fs1) "properties" = JS.jobj pfs := by
    cases hg : getProp (JS.jobj fs1) "properties"
    case jobj pfs => exact ⟨pfs, rfl⟩
    all_goals rw [hg] at hpresent
    all_goals simp [hasProp] at hpresent
  have hp' : fs1.get "properties" = JS.jobj pfs := hp
  unfold SchemaBuilder.mergePropsStep
  rw [if_neg (by simp [hpresent])]
  simp only [getProp_jobj_eq, hp', setProp_jobj_eq, gpr, grp, JSFields.get_set_self]
  by_cases hdem : (SchemaBuilder.jsArrContains (fs1.get "required") (.jstr k)
      && !(SchemaBuilder.jsArrContains req2 (.jstr k))) = true
  · rw [if_pos hdem]
    simp only [getProp_jobj_eq, setProp_jobj_eq, gpr, grp, JSFields.get_set_self]
    refine ⟨by trivial, ?_⟩
    rw [jsArrContains_jsFilter_self]
    rw [Bool.and_eq_true, Bool.not_eq_true'] at hdem
    rw [hdem.1, hdem.2]
    rfl
  · rw [if_neg hdem]
    simp only [getProp_jobj_eq, setProp_jobj_eq, gpr, grp, JSFields.get_set_self]
    refine ⟨by trivial, ?_⟩
    cases h1 : SchemaBuilder.jsArrContains (fs1.get "required") (.jstr k) with
    | false => rfl
    | true =>
        cases h2 : SchemaBuilder.jsArrContains req2 (.jstr k) with
        | true => rfl
        | false =>
            rw [h1, h2] at hdem
            simp at hdem

theorem mergePropsStep_jobj (req2 : JS) (fs1 : JSFields) (k : String) (v : JS) :
    ∃ gs, SchemaBuilder.mergePropsStep req2 (JS.jobj fs1) k v = JS.jobj gs := by
  unfold SchemaBuilder.mergePropsStep
  split
  · split
    · simp only [setProp_jobj_eq]
      exact ⟨_, rfl⟩
    · simp only [setProp_jobj_eq]
      exact ⟨_, rfl⟩
  · split
    · simp only [setProp_jobj_eq]
      exact ⟨_, rfl⟩
    · simp only [setProp_jobj_eq]
      exact ⟨_, rfl⟩

theorem mergePropsLoop_preserves : ∀ (p2 : JSFields) (s1 req2 : JS) (name : String),
    p2.hasKey name = false →
    getProp (getProp (SchemaBuilder.mergePropsLoop req2 s1 p2) "properties") name
      = getProp (getProp s1 "properties") name
    ∧ hasProp (getProp (SchemaBuilder.mergePropsLoop req2 s1 p2) "properties") name
      = hasProp (getProp s1 "properties") name
    ∧ SchemaBuilder.jsArrContains
        (getProp (SchemaBuilder.mergePropsLoop req2 s1 p2) "required") (.jstr name)
      = SchemaBuilder.jsArrContains (getProp s1 "required") (.jstr name)
  | .nil, s1, req2, name, _ => ⟨rfl, rfl, rfl⟩
  | .cons k v rest, s1, req2, name, hnk => by
      simp only [JSFields.hasKey, Bool.or_eq_false_iff, beq_eq_false_iff_ne] at hnk
      rw [SchemaBuilder.mergePropsLoop]
      obtain ⟨ih1, ih2, ih3⟩ :=
        mergePropsLoop_preserves rest (SchemaBuilder.mergePropsStep req2 s1 k v) req2 name
          (by
            cases hh : rest.hasKey name
            · rfl
            · exact absurd hh (by rw [hnk.2]; exact Bool.false_ne_true))
      obtain ⟨st1, st2, st3⟩ := mergePropsStep_observables_ne req2 s1 k v name hnk.1
      exact ⟨ih1.trans st1, ih2.trans st2, ih3.trans st3⟩

theorem mergePropsLoop_at_name : ∀ (p2 : JSFields) (fs1 : JSFields) (req2 : JS) (name : String),
    p2.keysUnique → p2.hasKey name = true →
    hasProp (getProp (JS.jobj fs1) "properties") name = true →
    getProp (getProp (SchemaBuilder.mergePropsLoop req2 (JS.jobj fs1) p2) "properties") name
      = JS.jobj (.cons "anyOf"
          (.jarr (.cons (getProp (getProp (JS.jobj fs1) "properties") name)
            (.cons (p2.get name) .nil))) .nil)
    ∧ SchemaBuilder.jsArrContains
        (getProp (SchemaBuilder.mergePropsLoop req2 (JS.jobj fs1) p2) "required") (.jstr name)
      = (SchemaBuilder.jsArrContains (getProp (JS.jobj fs1) "required") (.jstr name)
          && SchemaBuilder.jsArrContains req2 (.jstr name))
  | .nil, fs1, req2, name, _, hk, _ => by simp [JSFields.hasKey] at hk
  | .cons k v rest, fs1, req2, name, huniq, hk, hpres => by
      rw [SchemaBuilder.mergePropsLoop]
      by_cases heq : k = name
      · subst heq
        have hnr : rest.hasKey k = false := by
          cases hh : rest.hasKey k
          · rfl
          · exact absurd ((JSFields.hasKey_iff_mem_keys rest k).mp hh)
              (List.nodup_cons.mp huniq).1
        have hget : (JSFields.cons k v rest).get k = v := by simp [JSFields.get]
        obtain ⟨pr1, _, pr3⟩ :=
          mergePropsLoop_preserves rest (SchemaBuilder.mergePropsStep req2 (JS.jobj fs1) k v)
            req2 k hnr
        obtain ⟨at1, at2⟩ := mergePropsStep_at_name req2 fs1 k v hpres
        rw [hget]
        exact ⟨pr1.trans at1, pr3.trans at2⟩
      · have hk' : rest.hasKey name = true := by
          simpa [JSFields.hasKey, heq] using hk
        have huniq' : rest.keysUnique := (List.nodup_cons.mp huniq).2
        have hget : (JSFields.cons k v rest).get name = rest.get name := by
          simp [JSFields.get, heq]
        obtain ⟨gs, hgs⟩ := mergePropsStep_jobj req2 fs1 k v
        obtain ⟨st1, st2, st3⟩ := mergePropsStep_observables_ne req2 (JS.jobj fs1) k v name heq
        rw [hgs] at st1 st2 st3
        obtain ⟨ih1, ih2⟩ := mergePropsLoop_at_name rest gs req2 name huniq' hk'
          (by rw [st2]; exact hpres)
        rw [hgs, hget, ih1, ih2, st1, st3]
        exact ⟨rfl, rfl⟩

/-- C5: for simple object schemas `A` and `B` and a property name
declared in both, `A.MergeProperties(B)` replaces the property with
`anyOf: [A's schema, B's schema]`, and the name is required in the
result exactly when both `A` and `B` required it — so it is demoted to
optional exactly when `A` required it and `B` did not, it is never
demoted when both require it, and a name `A` did not require stays
non-required regardless of `B`. -/
theorem C5_merge_properties (s1 s2 : JS) (pa pb : JSFields) (name : String) (r : JS)
    (hsimple1 : SchemaBuilder.IsSimpleObjectSchema s1 = true)
    (_hsimple2 : SchemaBuilder.IsSimpleObjectSchema s2 = true)
    (hpa : getProp s1 "properties" = JS.jobj pa)
    (hpb : getProp s2 "properties" = JS.jobj pb)
    (huniq : pb.keysUnique)
    (hina : pa.hasKey name = true)
    (hinb : pb.hasKey name = true)
    (hok : SchemaBuilder.MergeProperties s1 s2 = .ok r) :
    getProp (getProp r "properties") name
      = JS.jobj (.cons "anyOf"
          (.jarr (.cons (pa.get name) (.cons (pb.get name) .nil))) .nil)
    ∧ SchemaBuilder.jsArrContains (getProp r "required") (.jstr name)
      = (SchemaBuilder.jsArrContains (getProp s1 "required") (.jstr name)
          && SchemaBuilder.jsArrContains (getProp s2 "required") (.jstr name)) := by
  obtain ⟨sfs, rfl⟩ : ∃ sfs, s1 = JS.jobj sfs := by
    cases s1
    case jobj sfs => exact ⟨sfs, rfl⟩
    all_goals simp [getProp] at hpa
  unfold SchemaBuilder.MergeProperties at hok
  rw [if_neg (by simp [hsimple1]), hpb] at hok
  cases hok
  have hpa' : sfs.get "properties" = JS.jobj pa := hpa
  have hoe : SchemaBuilder.orEmptyObj (getProp (JS.jobj sfs) "properties") = JS.jobj pa := by
    rw [getProp_jobj_eq, hpa', SchemaBuilder.orEmptyObj]
    simp [truthy]
  rw [hoe, setProp_jobj_eq]
  obtain ⟨m1, m2⟩ := mergePropsLoop_at_name pb (sfs.set "properties" (JS.jobj pa))
    (getProp s2 "required") name huniq hinb
    (by rw [getProp_jobj_eq, JSFields.get_set_self, hasProp_jobj_eq]; exact hina)
  rw [m1, m2]
  have hprop : getProp (JS.jobj (sfs.set "properties" (JS.jobj pa))) "properties"
      = JS.jobj pa := by
    rw [getProp_jobj_eq, JSFields.get_set_self]
  have hreq : getProp (JS.jobj (sfs.set "properties" (JS.jobj pa))) "required"
      = getProp (JS.jobj sfs) "required" := by
    rw [getProp_jobj_eq, JSFields.get_set_ne sfs "properties" _ "required" (by decide),
      getProp_jobj_eq]
  rw [hprop, hreq]
  exact ⟨rfl, rfl⟩

/-- Schema `A` of the C5 witness: required `p: {type:"string"}`. -/
def c5A : JS :=
  .jobj (.cons "type" (.jstr "object")
    (.cons "additionalProperties" (.jbool false)
      (.cons "properties" (.jobj (.cons "p" (.jobj (.cons "type" (.jstr "string") .nil)) .nil))
        (.cons "required" (.jarr (.cons (.jstr "p") .nil)) .nil))))

/-- Schema `B` of the C5 witness: optional `p: {type:"number"}`. -/
def c5B : JS :=
  .jobj (.cons "type" (.jstr "object")
    (.cons "additionalProperties" (.jbool false)
      (.cons "properties" (.jobj (.cons "p" (.jobj (.cons "type" (.jstr "number") .nil)) .nil)) .nil)))

/-- C5 witness: merging demotes the shared property `p` (required in
`A`, optional in `B`) and replaces it with the `anyOf` of both. -/
theorem C5_merge_properties_witness :
    ∃ r, SchemaBuilder.MergeProperties c5A c5B = .ok r
      ∧ getProp (getProp r "properties") "p"
          = JS.jobj (.cons "anyOf"
              (.jarr (.cons (.jobj (.cons "type" (.jstr "string") .nil))
                (.cons (.jobj (.cons "type" (.jstr "number") .nil)) .nil))) .nil)
      ∧ SchemaBuilder.jsArrContains (getProp r "required") (.jstr "p") = false := by
  refine ⟨_, rfl, ?_, ?_⟩
  · exact (C5_merge_properties c5A c5B
      (.cons "p" (.jobj (.cons "type" (.jstr "string") .nil)) .nil)
      (.cons "p" (.jobj (.cons "type" (.jstr "number") .nil)) .nil) "p" _
      (by decide) (by decide) (by decide) (by decide) (by decide) (by decide) (by decide) rfl).1
  · have h2 := (C5_merge_properties c5A c5B
      (.cons "p" (.jobj (.cons "type" (.jstr "string") .nil)) .nil)
      (.cons "p" (.jobj (.cons "type" (.jstr "number") .nil)) .nil) "p" _
      (by decide) (by decide) (by decide) (by decide) (by decide) (by decide) (by decide) rfl).2
    rw [h2]
    decide

/-!
## Claim C8 — the Pick/Omit complement law
-/

theorem listContains_iff (l : List String) (x : String) : l.contains x = true ↔ x ∈ l := by
  induction l with
  | nil => simp
  | cons a l ih =>
      simp only [List.contains_cons, Bool.or_eq_true, beq_iff_eq, List.mem_cons, ih]

theorem JSFields.keys_set_of_not_hasKey : ∀ (fs : JSFields) (k : String) (v : JS),
    fs.hasKey k = false → (fs.set k v).keys = fs.keys ++ [k]
  | .nil, k, v, _ => rfl
  | .cons k0 w fs, k, v, h => by
      simp only [JSFields.hasKey, Bool.or_eq_false_iff, beq_eq_false_iff_ne] at h
      simp only [JSFields.set, beq_iff_eq, if_neg h.1, JSFields.keys,
        JSFields.keys_set_of_not_hasKey fs k v h.2, List.cons_append]

theorem JSFields.keysUnique_set (fs : JSFields) (k : String) (v : JS)
    (h : fs.keysUnique) : (fs.set k v).keysUnique := by
  unfold JSFields.keysUnique at h ⊢
  cases hh : fs.hasKey k
  · rw [JSFields.keys_set_of_not_hasKey fs k v hh]
    have hk : k ∉ fs.keys := fun hm => by
      rw [(JSFields.hasKey_iff_mem_keys fs k).mpr hm] at hh
      cases hh
    simp [List.nodup_append, h, hk]
  · rw [JSFields.keys_set_of_hasKey fs k v hh]
    exact h

theorem JSList.filterVals_congr : ∀ (xs : JSList) (p q : JS → Bool),
    (∀ x, p x = q x) → xs.filterVals p = xs.filterVals q
  | .nil, _, _, _ => rfl
  | .cons x xs, p, q, h => by
      simp only [JSList.filterVals, h x, JSList.filterVals_congr xs p q h]

theorem pickMapAux_spec (P : JS) : ∀ (names : List String) (acc : JSFields),
    ∃ mfs, names.foldl (fun m p => setProp m p (getProp P p)) (JS.jobj acc) = JS.jobj mfs
      ∧ ∀ x, (mfs.hasKey x = true ↔ (x ∈ names ∨ acc.hasKey x = true))
  | [], acc => ⟨acc, rfl, by simp⟩
  | n :: rest, acc => by
      obtain ⟨mfs, heq, hchar⟩ := pickMapAux_spec P rest (acc.set n (getProp P n))
      refine ⟨mfs, ?_, ?_⟩
      · rw [List.foldl_cons]
        exact heq
      · intro x
        rw [hchar x, JSFields.hasKey_set]
        simp only [List.mem_cons, Bool.or_eq_true, beq_iff_eq]
        constructor
        · rintro (h | rfl | h)
          · exact Or.inl (Or.inr h)
          · exact Or.inl (Or.inl rfl)
          · exact Or.inr h
        · rintro ((rfl | h) | h)
          · exact Or.inr (Or.inl rfl)
          · exact Or.inl h
          · exact Or.inr (Or.inr h)

/-- The `required` value of a `PickProperties` result, as a function of
the original top-level fields and the kept names. -/
def pickRequiredSpec (sfs : JSFields) (L : List String) : JS :=
  match sfs.get "required" with
  | .jarr xs =>
      if xs.filterVals (fun r => L.any (fun n => r == .jstr n)) = .nil then JS.undef
      else .jarr (xs.filterVals (fun r => L.any (fun n => r == .jstr n)))
  | r => r

theorem gset_pr (fs : JSFields) (X : JS) :
    (fs.set "properties" X).get "required" = fs.get "required" :=
  JSFields.get_set_ne fs "properties" X "required" (by decide)

theorem gset_rp (fs : JSFields) (X : JS) :
    (fs.set "required" X).get "properties" = fs.get "properties" :=
  JSFields.get_set_ne fs "required" X "properties" (by decide)

theorem gset_ap_r (fs : JSFields) (X : JS) :
    (fs.set "additionalProperties" X).get "required" = fs.get "required" :=
  JSFields.get_set_ne fs "additionalProperties" X "required" (by decide)

theorem gset_ap_p (fs : JSFields) (X : JS) :
    (fs.set "additionalProperties" X).get "properties" = fs.get "properties" :=
  JSFields.get_set_ne fs "additionalProperties" X "properties" (by decide)

theorem gdel_r_p (fs : JSFields) :
    (fs.del "required").get "properties" = fs.get "properties" :=
  JSFields.get_del_ne fs "required" "properties" (by decide)

/-- Full characterisation of a successful `PickProperties`: the result's
property keys are exactly the requested names, and its `required` value
is the original `required` filtered to the requested names (deleted when
the filter empties it). -/
theorem pick_result_spec (sfs ps : JSFields) (L : List String)
    (hprops : sfs.get "properties" = JS.jobj ps)
    (huniq : sfs.keysUnique)
    (hpre : (!(SchemaBuilder.IsObjectSchema (JS.jobj sfs))
             || SchemaBuilder.HasSchemasCombinationKeywords (JS.jobj sfs)) = false) :
    ∃ c mfs, SchemaBuilder.PickProperties (JS.jobj sfs) L = .ok c
      ∧ getProp c "properties" = JS.jobj mfs
      ∧ (∀ x, mfs.hasKey x = true ↔ x ∈ L)
      ∧ getProp c "required" = pickRequiredSpec sfs L := by
  have hoe : SchemaBuilder.orEmptyObj (getProp (JS.jobj sfs) "properties") = JS.jobj ps := by
    rw [getProp_jobj_eq, hprops]
    simp [SchemaBuilder.orEmptyObj, truthy]
  obtain ⟨mfs, hm, hchar⟩ := pickMapAux_spec (JS.jobj ps) L JSFields.nil
  have hchar' : ∀ x, mfs.hasKey x = true ↔ x ∈ L := by
    intro x
    rw [hchar x]
    simp [JSFields.hasKey]
  unfold SchemaBuilder.PickProperties
  rw [if_neg (by rw [hpre]; exact Bool.false_ne_true)]
  rw [hoe]
  simp only [setProp_jobj_eq, getProp_jobj_eq, JSFields.get_set_self]
  rw [show SchemaBuilder.pickMap (JS.jobj ps) L = JS.jobj mfs from hm]
  have huniq1 : ((sfs.set "properties" (JS.jobj ps)).set "properties" (JS.jobj mfs)).keysUnique :=
    JSFields.keysUnique_set _ _ _ (JSFields.keysUnique_set _ _ _ huniq)
  have hreq2 : ((sfs.set "properties" (JS.jobj ps)).set "properties" (JS.jobj mfs)).get "required"
      = sfs.get "required" := by rw [gset_pr, gset_pr]
  have hpr2 : ((sfs.set "properties" (JS.jobj ps)).set "properties" (JS.jobj mfs)).get "properties"
      = JS.jobj mfs := JSFields.get_set_self _ _ _
  unfold SchemaBuilder.pickFilterRequired
  rw [getProp_jobj_eq, hreq2]
  cases hr : sfs.get "required" with
  | jarr xs =>
      dsimp only
      simp only [setProp_jobj_eq]
      by_cases hnil : xs.filterVals (fun r => L.any (fun n => r == .jstr n)) = JSList.nil
      · rw [SchemaBuilder.pickDropEmptyRequired,
          if_pos (by
            rw [getProp_jobj_eq, JSFields.get_set_self, hnil]
            exact beq_self_eq_true _)]
        simp only [delProp, setProp_jobj_eq]
        refine ⟨_, mfs, rfl, ?_, hchar', ?_⟩
        · rw [getProp_jobj_eq, gset_ap_p, gdel_r_p, gset_rp, hpr2]
        · rw [getProp_jobj_eq, gset_ap_r]
          have hu3 : (((sfs.set "properties" (JS.jobj ps)).set "properties" (JS.jobj mfs)).set
              "required" (JS.jarr (xs.filterVals (fun r => L.any (fun n => r == .jstr n))))).keysUnique :=
            JSFields.keysUnique_set _ _ _ huniq1
          rw [JSFields.get_eq_undef_of_not_hasKey _ "required"
            (JSFields.hasKey_del_of_nodup _ "required" hu3)]
          rw [pickRequiredSpec, hr]
          dsimp only
          rw [if_pos hnil]
      · rw [SchemaBuilder.pickDropEmptyRequired,
          if_neg (by
            rw [getProp_jobj_eq, JSFields.get_set_self]
            intro hh
            exact hnil (JS.jarr.inj (beq_iff_eq.mp hh)))]
        simp only [setProp_jobj_eq]
        refine ⟨_, mfs, rfl, ?_, hchar', ?_⟩
        · rw [getProp_jobj_eq, gset_ap_p, gset_rp, hpr2]
        · rw [getProp_jobj_eq, gset_ap_r, JSFields.get_set_self, pickRequiredSpec, hr]
          dsimp only
          rw [if_neg hnil]
  | undef =>
      dsimp only
      rw [SchemaBuilder.pickDropEmptyRequired,
        if_neg (by rw [getProp_jobj_eq, hreq2, hr]; intro hh; cases beq_iff_eq.mp hh)]
      simp only [setProp_jobj_eq]
      refine ⟨_, mfs, rfl, ?_, hchar', ?_⟩
      · rw [getProp_jobj_eq, gset_ap_p, hpr2]
      · rw [getProp_jobj_eq, gset_ap_r, hreq2, pickRequiredSpec, hr]
  | jnull =>
      dsimp only
      rw [SchemaBuilder.pickDropEmptyRequired,
        if_neg (by rw [getProp_jobj_eq, hreq2, hr]; intro hh; cases beq_iff_eq.mp hh)]
      simp only [setProp_jobj_eq]
      refine ⟨_, mfs, rfl, ?_, hchar', ?_⟩
      · rw [getProp_jobj_eq, gset_ap_p, hpr2]
      · rw [getProp_jobj_eq, gset_ap_r, hreq2, pickRequiredSpec, hr]
  | jbool b =>
      dsimp only
      rw [SchemaBuilder.pickDropEmptyRequired,
        if_neg (by rw [getProp_jobj_eq, hreq2, hr]; intro hh; cases beq_iff_eq.mp hh)]
      simp only [setProp_jobj_eq]
      refine ⟨_, mfs, rfl, ?_, hchar', ?_⟩
      · rw [getProp_jobj_eq, gset_ap_p, hpr2]
      · rw [getProp_jobj_eq, gset_ap_r, hreq2, pickRequiredSpec, hr]
  | jnum n =>
      dsimp only
      rw [SchemaBuilder.pickDropEmptyRequired,
        if_neg (by rw [getProp_jobj_eq, hreq2, hr]; intro hh; cases beq_iff_eq.mp hh)]
      simp only [setProp_jobj_eq]
      refine ⟨_, mfs, rfl, ?_, hchar', ?_⟩
      · rw [getProp_jobj_eq, gset_ap_p, hpr2]
      · rw [getProp_jobj_eq, gset_ap_r, hreq2, pickRequiredSpec, hr]
  | jstr t =>
      dsimp only
      rw [SchemaBuilder.pickDropEmptyRequired,
        if_neg (by rw [getProp_jobj_eq, hreq2, hr]; intro hh; cases beq_iff_eq.mp hh)]
      simp only [setProp_jobj_eq]
      refine ⟨_, mfs, rfl, ?_, hchar', ?_⟩
      · rw [getProp_jobj_eq, gset_ap_p, hpr2]
      · rw [getProp_jobj_eq, gset_ap_r, hreq2, pickRequiredSpec, hr]
  | jobj gs =>
      dsimp only
      rw [SchemaBuilder.pickDropEmptyRequired,
        if_neg (by rw [getProp_jobj_eq, hreq2, hr]; intro hh; cases beq_iff_eq.mp hh)]
      simp only [setProp_jobj_eq]
      refine ⟨_, mfs, rfl, ?_, hchar', ?_⟩
      · rw [getProp_jobj_eq, gset_ap_p, hpr2]
      · rw [getProp_jobj_eq, gset_ap_r, hreq2, pickRequiredSpec, hr]

theorem pickRequiredSpec_congr (sfs : JSFields) (L1 L2 : List String)
    (h : ∀ x, x ∈ L1 ↔ x ∈ L2) :
    pickRequiredSpec sfs L1 = pickRequiredSpec sfs L2 := by
  have hpq : ∀ r, (L1.any (fun n => r == JS.jstr n)) = (L2.any (fun n => r == JS.jstr n)) := by
    intro r
    have h1 : (L1.any (fun n => r == JS.jstr n) = true)
        ↔ (L2.any (fun n => r == JS.jstr n) = true) := by
      simp only [List.any_eq_true]
      constructor
      · rintro ⟨n, hn, hr⟩; exact ⟨n, (h n).mp hn, hr⟩
      · rintro ⟨n, hn, hr⟩; exact ⟨n, (h n).mpr hn, hr⟩
    cases hb1 : L1.any (fun n => r == JS.jstr n) with
    | true => exact (h1.mp hb1).symm
    | false =>
        cases hb2 : L2.any (fun n => r == JS.jstr n) with
        | false => rfl
        | true => exact absurd (h1.mpr hb2) (by simp [hb1])
  unfold pickRequiredSpec
  cases sfs.get "required" with
  | jarr xs =>
      dsimp only
      rw [JSList.filterVals_congr xs _ _ hpq]
  | undef => rfl
  | jnull => rfl
  | jbool b => rfl
  | jnum n => rfl
  | jstr t => rfl
  | jobj gs => rfl

def c8ps : JSFields :=
  .cons "a" (.jobj .nil) (.cons "b" (.jobj .nil) .nil)

def c8fs : JSFields :=
  .cons "type" (.jstr "object")
    (.cons "additionalProperties" (.jbool false)
      (.cons "properties" (.jobj c8ps)
        (.cons "required" (.jarr (.cons (.jstr "a") (.cons (.jstr "b") .nil))) .nil)))

/-- C8: for every simple object schema with declared property map `ps`
(with unique keys) and every subset `K` of the declared keys,
`PickProperties(K)` and `OmitProperties(keys \ K)` both succeed and
produce results with the same `properties` key-set and the same
`required` value. -/
theorem C8_pick_omit_complement (sfs ps : JSFields) (K : List String)
    (hsimple : SchemaBuilder.IsSimpleObjectSchema (JS.jobj sfs) = true)
    (hprops : sfs.get "properties" = JS.jobj ps)
    (huniq : sfs.keysUnique)
    (hsub : ∀ x ∈ K, x ∈ ps.keys) :
    ∃ c1 c2 m1 m2,
      SchemaBuilder.PickProperties (JS.jobj sfs) K = .ok c1
      ∧ SchemaBuilder.OmitProperties (JS.jobj sfs)
          (ps.keys.filter (fun x => !(K.contains x))) = .ok c2
      ∧ getProp c1 "properties" = JS.jobj m1
      ∧ getProp c2 "properties" = JS.jobj m2
      ∧ (∀ x, m1.hasKey x = m2.hasKey x)
      ∧ getProp c1 "required" = getProp c2 "required" := by
  have hpre : (!(SchemaBuilder.IsObjectSchema (JS.jobj sfs))
      || SchemaBuilder.HasSchemasCombinationKeywords (JS.jobj sfs)) = false := by
    rw [SchemaBuilder.IsSimpleObjectSchema] at hsimple
    simp only [Bool.and_eq_true, Bool.not_eq_true'] at hsimple
    rw [hsimple.1.1, hsimple.2]
    rfl
  have hcf : ∀ (l : List String) (x : String), (l.contains x = false) ↔ x ∉ l := by
    intro l x
    rw [Bool.eq_false_iff]
    exact not_congr (listContains_iff l x)
  have hmemb : ∀ x,
      x ∈ (ps.keys.filter
        (fun k => !((ps.keys.filter (fun y => !(K.contains y))).contains k))) ↔ x ∈ K := by
    intro x
    rw [List.mem_filter]
    constructor
    · rintro ⟨hxk, hnx⟩
      rw [Bool.not_eq_true'] at hnx
      have hout := (hcf _ x).mp hnx
      by_contra hxK
      exact hout (List.mem_filter.mpr ⟨hxk, by
        rw [Bool.not_eq_true']
        exact (hcf K x).mpr hxK⟩)
    · intro hxK
      refine ⟨hsub x hxK, ?_⟩
      rw [Bool.not_eq_true']
      apply (hcf _ x).mpr
      intro hmem2
      have hsplit := List.mem_filter.mp hmem2
      rw [Bool.not_eq_true'] at hsplit
      exact (hcf K x).mp hsplit.2 hxK
  obtain ⟨c1, m1, h1ok, h1p, h1char, h1req⟩ := pick_result_spec sfs ps K hprops huniq hpre
  have hkeys : keysOf (SchemaBuilder.orEmptyObj (getProp (JS.jobj sfs) "properties"))
      = ps.keys := by
    rw [getProp_jobj_eq, hprops]
    simp [SchemaBuilder.orEmptyObj, truthy, keysOf]
  have homit : SchemaBuilder.OmitProperties (JS.jobj sfs)
      (ps.keys.filter (fun x => !(K.contains x)))
      = SchemaBuilder.PickProperties (JS.jobj sfs)
        (ps.keys.filter
          (fun k => !((ps.keys.filter (fun y => !(K.contains y))).contains k))) := by
    unfold SchemaBuilder.OmitProperties
    rw [if_neg (by rw [hsimple]; decide), hkeys]
  obtain ⟨c2, m2, h2ok, h2p, h2char, h2req⟩ :=
    pick_result_spec sfs ps
      (ps.keys.filter (fun k => !((ps.keys.filter (fun y => !(K.contains y))).contains k)))
      hprops huniq hpre
  refine ⟨c1, c2, m1, m2, h1ok, ?_, h1p, h2p, ?_, ?_⟩
  · rw [homit]
    exact h2ok
  · intro x
    cases hb : m1.hasKey x with
    | true => exact (h2char x |>.mpr ((hmemb x).mpr (h1char x |>.mp hb))).symm
    | false =>
        cases hb2 : m2.hasKey x with
        | false => rfl
        | true =>
            exact absurd (h1char x |>.mpr ((hmemb x).mp (h2char x |>.mp hb2)))
              (by simp [hb])
  · rw [h1req, h2req]
    exact pickRequiredSpec_congr sfs K _ (fun x => (hmemb x).symm)

/-- Concrete instance of `C8_pick_omit_complement`: schema
`{type:"object", additionalProperties:false, properties:{a:{},b:{}},
required:["a","b"]}` with `K = ["a"]`. -/
theorem C8_pick_omit_complement_witness :
    ∃ c1 c2 m1 m2,
      SchemaBuilder.PickProperties (JS.jobj c8fs) ["a"] = .ok c1
      ∧ SchemaBuilder.OmitProperties (JS.jobj c8fs)
          (c8ps.keys.filter (fun x => !((["a"] : List String).contains x))) = .ok c2
      ∧ getProp c1 "properties" = JS.jobj m1
      ∧ getProp c2 "properties" = JS.jobj m2
      ∧ (∀ x, m1.hasKey x = m2.hasKey x)
      ∧ getProp c1 "required" = getProp c2 "required" :=
  C8_pick_omit_complement c8fs c8ps ["a"] (by decide) (by decide) (by decide) (by decide)
